import Mathlib

/-! # Shader converter (`src/graphics/converters/converter_shader.cpp`)

A shallow embedding of `ConverterShader::Convert`: the gathering of the unique
shaders referenced by techniques, the two generate-and-compile passes, the
binding tables, and the records assembled for serialization.

Conventions of the embedding.

* `Core::String` is `String`; `Core::Vector<T>` is `List T`.
* Container sizes and the indices that walk a container (`idx` in
  `FindShaderIdx`, `bindingIdx` in `AddBindings`) are `Int` values: the
  containers of the engine have an `i32` size, so a walk over one never leaves
  the `i32` range.  The byte arithmetic of the bytecode headers is different:
  a byte count comes from a pointer difference, so `numBytes_` and
  `bytecodeOffset` are reduced to the signed 32-bit range explicitly.
* The preprocessor, the parser, the HLSL generator and the native compiler are
  collaborators declared outside this file; they are fields of `Env`.
-/

namespace ShaderConv

/-! ## Data model -/

/-- Modelled from the spec: `GPU::ShaderType` is declared in `gpu/enum.h`, which
is outside the sources at hand.  The six stage kinds, in the order the spec
lists them (Vertex, Geometry, Hull, Domain, Pixel, Compute); `MAX` is 6. -/
inductive ShaderType where
  | VS | GS | HS | DS | PS | CS
  deriving DecidableEq, Repr

/-- The integer value of a stage kind, the index used into `shaders`. -/
def ShaderType.toIdx : ShaderType → Nat
  | .VS => 0 | .GS => 1 | .HS => 2 | .DS => 3 | .PS => 4 | .CS => 5

/-- The stage kinds in increasing integer order: the range of the loop
`for(i32 idx = 0; idx < shaders.size(); ++idx)`. -/
def ShaderType.all : List ShaderType := [.VS, .GS, .HS, .DS, .PS, .CS]

/-- Technique record produced by `ShaderBackendMetadata`: a name, six
entry-point names (empty when the stage is absent) and the render state. -/
structure ShaderTechniqueInfo where
  name_ : String
  vs_ : String
  gs_ : String
  hs_ : String
  ds_ : String
  ps_ : String
  cs_ : String
  rs_ : Nat
  deriving DecidableEq, Repr

/-- The entry-point name a technique declares for a stage kind. -/
def ShaderTechniqueInfo.entry (t : ShaderTechniqueInfo) : ShaderType → String
  | .VS => t.vs_ | .GS => t.gs_ | .HS => t.hs_
  | .DS => t.ds_ | .PS => t.ps_ | .CS => t.cs_

/-- Sampler state produced by `ShaderBackendMetadata`: name and state value. -/
structure ShaderSamplerStateInfo where
  name_ : String
  state_ : Nat
  deriving DecidableEq, Repr

/-- The local struct `CompileInfo` of `Convert`. -/
structure CompileInfo where
  name_ : String
  code_ : String
  entryPoint_ : String
  type_ : ShaderType
  deriving DecidableEq, Repr

/-- A reflected binding: name and the slot the compiler assigned locally. -/
structure ShaderBinding where
  name_ : String
  slot_ : Int
  deriving DecidableEq, Repr

/-- Modelled from the spec: `Graphics::ShaderCompileOutput` is declared in
`shader_compiler_hlsl.h`, outside the sources at hand.  A successful
compilation: the bytes between `byteCodeBegin_` and `byteCodeEnd_`, the four
reflected binding lists and the stage kind. -/
structure ShaderCompileOutput where
  byteCode : List Nat
  cbuffers_ : List ShaderBinding
  samplers_ : List ShaderBinding
  srvs_ : List ShaderBinding
  uavs_ : List ShaderBinding
  type_ : ShaderType
  deriving DecidableEq, Repr

/-- Modelled from the spec: `Core::Map<Core::String, i32>` (`Graphics::BindingMap`)
is declared in `core/map.h`, outside the sources at hand.  An insertion-ordered
name to index table: an append-only list of pairs, iterated in insertion order. -/
abbrev BindingMap := List (String × Int)

/-- Lookup `bindings.find(name)`: the value stored under the name, `none` for
`end()`. -/
def BindingMap.find (m : BindingMap) (name : String) : Option Int :=
  match m with
  | [] => none
  | (k, v) :: rest => if k = name then some v else BindingMap.find rest name

/-- Insertion `bindings.insert(name, idx)` of a name that is not in the table. -/
def BindingMap.insert (m : BindingMap) (name : String) (idx : Int) : BindingMap :=
  m ++ [(name, idx)]

/-- Modelled from the spec: `Core::Set<Core::String>` is declared in `core/set.h`,
outside the sources at hand.  `insert` on an insertion-ordered set without
duplicates: a name already present leaves the set unchanged. -/
def setInsert (s : List String) (x : String) : List String :=
  if x ∈ s then s else s ++ [x]

/-- The collaborators of a conversion and the constants declared outside the
converter: the source file name, the HLSL generator (its output depends on the
binding map handed to it), the native compiler, the capacities of the three
fixed-size name fields, whether the destination file can be created, and
whether `DBG_ASSERT` is compiled in. -/
structure Env where
  sourceFile : String
  genCode : BindingMap → String
  compile : String → String → String → ShaderType → Except String ShaderCompileOutput
  bindingNameCap : Nat
  techniqueNameCap : Nat
  samplerStateNameCap : Nat
  canCreateDest : Bool
  dbgAsserts : Bool

/-! ## Gathering the unique shaders -/

/-- One conditional insertion of the gather loop:
`if(name.size() > 0) shaders[(i32)type].insert(name);`. -/
def gatherOne (shaders : ShaderType → List String) (k : ShaderType) (name : String) :
    ShaderType → List String :=
  if name.length > 0 then Function.update shaders k (setInsert (shaders k) name) else shaders

/-- The body of the gather loop for one technique: vs, gs, hs, ds, ps, cs. -/
def gatherTechnique (shaders : ShaderType → List String) (t : ShaderTechniqueInfo) :
    ShaderType → List String :=
  gatherOne (gatherOne (gatherOne (gatherOne (gatherOne (gatherOne shaders
    .VS t.vs_) .GS t.gs_) .HS t.hs_) .DS t.ds_) .PS t.ps_) .CS t.cs_

/-- The gather loop over all techniques, from six empty sets. -/
def gatherShaders (techniques : List ShaderTechniqueInfo) : ShaderType → List String :=
  techniques.foldl gatherTechnique (fun _ => [])

/-! ## Generate and compile -/

/-- The construction of `outCompileInfo`: for each stage kind in increasing
order, one entry for each shader of its set, in the iteration order of the set. -/
def makeCompileInfo (sourceFile code : String) (shaders : ShaderType → List String) :
    List CompileInfo :=
  ShaderType.all.flatMap fun k => (shaders k).map fun shader => ⟨sourceFile, code, shader, k⟩

/-- The compile loop: units are compiled in order into `outCompileOutput`; the
first diagnostic stops the loop and is returned (the source logs it and
returns false). -/
def compileLoop (compile : String → String → String → ShaderType → Except String ShaderCompileOutput) :
    List CompileInfo → List ShaderCompileOutput → List ShaderCompileOutput × Option String
  | [], acc => (acc, none)
  | c :: rest, acc =>
    match compile c.name_ c.code_ c.entryPoint_ c.type_ with
    | .ok out => compileLoop compile rest (acc ++ [out])
    | .error errStr => (acc, some errStr)

/-- The lambda `GenerateAndCompile`: the two out-parameters after the call and
the diagnostic when it returned false (`none` when it returned true). -/
def GenerateAndCompile (env : Env) (shaders : ShaderType → List String) (bindingMap : BindingMap) :
    List CompileInfo × List ShaderCompileOutput × Option String :=
  let outCompileInfo := makeCompileInfo env.sourceFile (env.genCode bindingMap) shaders
  let r := compileLoop env.compile outCompileInfo []
  (outCompileInfo, r.1, r.2)

/-! ## Binding tables -/

/-- One iteration of the loop of `AddBindings`: a name that is not yet in the
table is inserted with the running index, which is then incremented. -/
def addBindingStep (st : BindingMap × Int) (binding : ShaderBinding) : BindingMap × Int :=
  if (BindingMap.find st.1 binding.name_).isNone then
    (BindingMap.insert st.1 binding.name_ st.2, st.2 + 1)
  else st

/-- The lambda `AddBindings`: the table after the call and the returned index. -/
def AddBindings (inBindings : List ShaderBinding) (outBindings : BindingMap) (bindingIdx : Int) :
    BindingMap × Int :=
  inBindings.foldl addBindingStep (outBindings, bindingIdx)

/-- One loop `for(compile : compileOutput) bindingIdx = AddBindings(compile.X, table, bindingIdx)`
for the category selected by `sel`. -/
def addAllBindings (sel : ShaderCompileOutput → List ShaderBinding)
    (compileOutput : List ShaderCompileOutput) (table : BindingMap) (bindingIdx : Int) :
    BindingMap × Int :=
  compileOutput.foldl (fun st compile => AddBindings (sel compile) st.1 st.2) (table, bindingIdx)

/-- The single table `usedBindings` built from the first pass: the four loops
insert into the same table, with one running index starting at 0. -/
def usedBindings (compileOutput : List ShaderCompileOutput) : BindingMap :=
  let s1 := addAllBindings (·.cbuffers_) compileOutput [] 0
  let s2 := addAllBindings (·.samplers_) compileOutput s1.1 s1.2
  let s3 := addAllBindings (·.srvs_) compileOutput s2.1 s2.2
  let s4 := addAllBindings (·.uavs_) compileOutput s3.1 s3.2
  s4.1

/-- The four final binding tables of `Convert`. -/
structure BindingTables where
  cbuffers : BindingMap
  samplers : BindingMap
  srvs : BindingMap
  uavs : BindingMap
  deriving DecidableEq, Repr

/-- The four tables built from the second pass: `bindingIdx` is set to 0 once
and is carried from each loop into the next, each loop filling its own table. -/
def finalTables (compileOutput : List ShaderCompileOutput) : BindingTables :=
  let c := addAllBindings (·.cbuffers_) compileOutput [] 0
  let s := addAllBindings (·.samplers_) compileOutput [] c.2
  let r := addAllBindings (·.srvs_) compileOutput [] s.2
  let u := addAllBindings (·.uavs_) compileOutput [] r.2
  ⟨c.1, s.1, r.1, u.1⟩

/-! ## Records assembled for serialization -/

/-- Reduction of an integer to the signed 32-bit range (`i32`). -/
def wrapI32 (x : Int) : Int := (x + 2147483648) % 4294967296 - 2147483648

/-- Modelled from the spec: `strcpy_s` into a fixed-capacity name field is declared
outside the sources at hand; the spec describes the name fields as filled by a
truncating copy.  At most `cap - 1` characters are kept (the terminator takes
the last place); a name that fits is copied unchanged. -/
def strcpy_s (cap : Nat) (src : String) : String := String.mk (src.data.take (cap - 1))

/-- The record `Graphics::ShaderHeader`. -/
structure ShaderHeader where
  numCBuffers_ : Int
  numSamplers_ : Int
  numSRVs_ : Int
  numUAVs_ : Int
  numShaders_ : Int
  numTechniques_ : Int
  numSamplerStates_ : Int
  deriving DecidableEq, Repr

/-- The record `Graphics::ShaderBindingHeader`: a fixed-capacity name. -/
structure ShaderBindingHeader where
  name_ : String
  deriving DecidableEq, Repr

/-- The record `Graphics::ShaderBytecodeHeader`. -/
structure ShaderBytecodeHeader where
  numCBuffers_ : Int
  numSamplers_ : Int
  numSRVs_ : Int
  numUAVs_ : Int
  type_ : ShaderType
  offset_ : Int
  numBytes_ : Int
  deriving DecidableEq, Repr

/-- The record `Graphics::ShaderBindingMapping`. -/
structure ShaderBindingMapping where
  binding_ : Int
  dstSlot_ : Int
  deriving DecidableEq, Repr

/-- The record `Graphics::ShaderTechniqueHeader`. -/
structure ShaderTechniqueHeader where
  name_ : String
  vs_ : Int
  gs_ : Int
  hs_ : Int
  ds_ : Int
  ps_ : Int
  cs_ : Int
  rs_ : Nat
  deriving DecidableEq, Repr

/-- The stage index a technique record stores for a stage kind. -/
def ShaderTechniqueHeader.stage (h : ShaderTechniqueHeader) : ShaderType → Int
  | .VS => h.vs_ | .GS => h.gs_ | .HS => h.hs_
  | .DS => h.ds_ | .PS => h.ps_ | .CS => h.cs_

/-- The record `Graphics::ShaderSamplerStateHeader`. -/
structure ShaderSamplerStateHeader where
  name_ : String
  state_ : Nat
  deriving DecidableEq, Repr

/-- The lambda `PopulateoutBindingHeaders`: one record for each entry of the
table, in iteration order, appended to `outBindingHeaders`. -/
def PopulateoutBindingHeaders (cap : Nat) (outBindingHeaders : List ShaderBindingHeader)
    (bindings : BindingMap) : List ShaderBindingHeader :=
  outBindingHeaders ++ bindings.map fun binding => ⟨strcpy_s cap binding.1⟩

/-- The loop that fills `outSamplerStateHeaders`. -/
def samplerStateHeaders (cap : Nat) (samplerStates : List ShaderSamplerStateInfo) :
    List ShaderSamplerStateHeader :=
  samplerStates.map fun samplerState => ⟨strcpy_s cap samplerState.name_, samplerState.state_⟩

/-- The lambda `AddBindingMapping`: one mapping for each binding of the unit,
appended to `outBindingMappings`.  `DBG_ASSERT(it != bindingMap.end())` guards
the read of `it->second`; a name that is not in the table has no value to read,
and the result is `none`. -/
def AddBindingMapping (bindingMap : BindingMap) :
    List ShaderBinding → List ShaderBindingMapping → Option (List ShaderBindingMapping)
  | [], outBindingMappings => some outBindingMappings
  | binding :: rest, outBindingMappings =>
    match BindingMap.find bindingMap binding.name_ with
    | none => none
    | some idx => AddBindingMapping bindingMap rest (outBindingMappings ++ [⟨idx, binding.slot_⟩])

/-- The state carried by the loop over `compileOutput` that builds the bytecode
headers and the binding mappings. -/
structure BytecodeState where
  bytecodeOffset : Int
  outBytecodeHeaders : List ShaderBytecodeHeader
  outBindingMappings : List ShaderBindingMapping
  deriving DecidableEq, Repr

/-- The header built for one compiled unit at the running offset. -/
def bytecodeHeader (bytecodeOffset : Int) (compile : ShaderCompileOutput) : ShaderBytecodeHeader :=
  { numCBuffers_ := compile.cbuffers_.length
    numSamplers_ := compile.samplers_.length
    numSRVs_ := compile.srvs_.length
    numUAVs_ := compile.uavs_.length
    type_ := compile.type_
    offset_ := bytecodeOffset
    numBytes_ := wrapI32 compile.byteCode.length }

/-- The body of the bytecode-header loop for one compiled unit. -/
def bytecodeStep (tables : BindingTables) (st : BytecodeState) (compile : ShaderCompileOutput) :
    Option BytecodeState :=
  let hdr := bytecodeHeader st.bytecodeOffset compile
  match AddBindingMapping tables.cbuffers compile.cbuffers_ st.outBindingMappings with
  | none => none
  | some m1 =>
    match AddBindingMapping tables.samplers compile.samplers_ m1 with
    | none => none
    | some m2 =>
      match AddBindingMapping tables.srvs compile.srvs_ m2 with
      | none => none
      | some m3 =>
        match AddBindingMapping tables.uavs compile.uavs_ m3 with
        | none => none
        | some m4 =>
          some { bytecodeOffset := wrapI32 (st.bytecodeOffset + hdr.numBytes_)
                 outBytecodeHeaders := st.outBytecodeHeaders ++ [hdr]
                 outBindingMappings := m4 }

/-- The bytecode-header loop over `compileOutput`. -/
def bytecodeLoop (tables : BindingTables) :
    List ShaderCompileOutput → BytecodeState → Option BytecodeState
  | [], st => some st
  | compile :: rest, st =>
    match bytecodeStep tables st compile with
    | none => none
    | some st1 => bytecodeLoop tables rest st1

/-- The search loop of `FindShaderIdx`: the position of the first entry of
`compileInfo` whose entry point equals the name, -1 when there is none. -/
def findShaderLoop (name : String) : List CompileInfo → Int → Int
  | [], _ => -1
  | compile :: rest, idx =>
    if compile.entryPoint_ = name then idx else findShaderLoop name rest (idx + 1)

/-- The lambda `FindShaderIdx`; `none` stands for a null pointer. -/
def FindShaderIdx (compileInfo : List CompileInfo) (name : Option String) : Int :=
  match name with
  | none => -1
  | some n => findShaderLoop n compileInfo 0

/-- The technique record built for one technique. -/
def techniqueHeader (cap : Nat) (compileInfo : List CompileInfo) (technique : ShaderTechniqueInfo) :
    ShaderTechniqueHeader :=
  { name_ := strcpy_s cap technique.name_
    vs_ := FindShaderIdx compileInfo (some technique.vs_)
    gs_ := FindShaderIdx compileInfo (some technique.gs_)
    hs_ := FindShaderIdx compileInfo (some technique.hs_)
    ds_ := FindShaderIdx compileInfo (some technique.ds_)
    ps_ := FindShaderIdx compileInfo (some technique.ps_)
    cs_ := FindShaderIdx compileInfo (some technique.cs_)
    rs_ := technique.rs_ }

/-- The loop that fills `outTechniqueHeaders`.  With `DBG_ASSERT` compiled in, a
record with neither a vertex nor a compute index stops the conversion (`none`);
without it the record is appended like any other. -/
def techniqueLoop (dbgAsserts : Bool) (cap : Nat) (compileInfo : List CompileInfo) :
    List ShaderTechniqueInfo → List ShaderTechniqueHeader → Option (List ShaderTechniqueHeader)
  | [], outTechniqueHeaders => some outTechniqueHeaders
  | technique :: rest, outTechniqueHeaders =>
    let hdr := techniqueHeader cap compileInfo technique
    if dbgAsserts && !(decide (hdr.vs_ ≠ -1) || decide (hdr.cs_ ≠ -1)) then none
    else techniqueLoop dbgAsserts cap compileInfo rest (outTechniqueHeaders ++ [hdr])

/-! ## The conversion -/

/-- What `WriteShader` writes to the destination file, in order: the header,
the five record arrays and the bytecode of the units. -/
structure Package where
  outHeader : ShaderHeader
  outBindingHeaders : List ShaderBindingHeader
  outBytecodeHeaders : List ShaderBytecodeHeader
  outBindingMappings : List ShaderBindingMapping
  outTechniqueHeaders : List ShaderTechniqueHeader
  outSamplerStateHeaders : List ShaderSamplerStateHeader
  bytecode : List Nat
  deriving DecidableEq, Repr

/-- The ways a conversion ends without a package. -/
inductive ConvertError where
  | compileFailed (pass : Nat) (errStr : String)
  | assertFailed
  | destNotCreated
  deriving DecidableEq, Repr

/-- The first call of `GenerateAndCompile`, with an empty binding map. -/
def pass1 (env : Env) (techniques : List ShaderTechniqueInfo) :
    List CompileInfo × List ShaderCompileOutput × Option String :=
  GenerateAndCompile env (gatherShaders techniques) []

/-- The second call of `GenerateAndCompile`, with the bindings the first pass used. -/
def pass2 (env : Env) (techniques : List ShaderTechniqueInfo) :
    List CompileInfo × List ShaderCompileOutput × Option String :=
  GenerateAndCompile env (gatherShaders techniques) (usedBindings (pass1 env techniques).2.1)

/-- The header `outHeader`. -/
def makeHeader (tables : BindingTables) (compileOutput : List ShaderCompileOutput)
    (techniques : List ShaderTechniqueInfo) (samplerStates : List ShaderSamplerStateInfo) :
    ShaderHeader :=
  { numCBuffers_ := tables.cbuffers.length
    numSamplers_ := tables.samplers.length
    numSRVs_ := tables.srvs.length
    numUAVs_ := tables.uavs.length
    numShaders_ := compileOutput.length
    numTechniques_ := techniques.length
    numSamplerStates_ := samplerStates.length }

/-- The four calls of `PopulateoutBindingHeaders`, in the order cbuffers,
samplers, srvs, uavs. -/
def bindingHeaders (cap : Nat) (tables : BindingTables) : List ShaderBindingHeader :=
  PopulateoutBindingHeaders cap (PopulateoutBindingHeaders cap (PopulateoutBindingHeaders cap
    (PopulateoutBindingHeaders cap [] tables.cbuffers) tables.samplers) tables.srvs) tables.uavs

/-- The bytes written by the last loop of `WriteShader`. -/
def writtenBytecode (compileOutput : List ShaderCompileOutput) : List Nat :=
  compileOutput.flatMap (·.byteCode)

/-- The part of `ConverterShader::Convert` after the extraction of techniques
and sampler states: the package written to the destination, or the way the
conversion ended without one. -/
def Convert (env : Env) (techniques : List ShaderTechniqueInfo)
    (samplerStates : List ShaderSamplerStateInfo) : Except ConvertError Package :=
  match (pass1 env techniques).2.2 with
  | some errStr => .error (.compileFailed 1 errStr)
  | none =>
    match (pass2 env techniques).2.2 with
    | some errStr => .error (.compileFailed 2 errStr)
    | none =>
      let compileInfo := (pass2 env techniques).1
      let compileOutput := (pass2 env techniques).2.1
      let tables := finalTables compileOutput
      match bytecodeLoop tables compileOutput ⟨0, [], []⟩ with
      | none => .error .assertFailed
      | some st =>
        match techniqueLoop env.dbgAsserts env.techniqueNameCap compileInfo techniques [] with
        | none => .error .assertFailed
        | some outTechniqueHeaders =>
          if env.canCreateDest then
            .ok { outHeader := makeHeader tables compileOutput techniques samplerStates
                  outBindingHeaders := bindingHeaders env.bindingNameCap tables
                  outBytecodeHeaders := st.outBytecodeHeaders
                  outBindingMappings := st.outBindingMappings
                  outTechniqueHeaders := outTechniqueHeaders
                  outSamplerStateHeaders := samplerStateHeaders env.samplerStateNameCap samplerStates
                  bytecode := writtenBytecode compileOutput }
          else .error .destNotCreated

/-! ## Sample inputs -/

/-- A compiler that succeeds on every unit: four bytes of bytecode, and one
constant buffer `cb` at slot 0 for every unit but the one named `plain`. -/
def sampleCompile (_name _code entryPoint : String) (type : ShaderType) :
    Except String ShaderCompileOutput :=
  .ok { byteCode := [1, 2, 3, 4]
        cbuffers_ := if entryPoint = "plain" then [] else [⟨"cb", 0⟩]
        samplers_ := []
        srvs_ := []
        uavs_ := []
        type_ := type }

/-- An environment around `sampleCompile`. -/
def sampleEnv : Env :=
  { sourceFile := "a.esf"
    genCode := fun _ => "code"
    compile := sampleCompile
    bindingNameCap := 8
    techniqueNameCap := 8
    samplerStateNameCap := 8
    canCreateDest := true
    dbgAsserts := true }

/-- One technique with a vertex and a pixel stage. -/
def sampleTechnique : ShaderTechniqueInfo :=
  { name_ := "t", vs_ := "v", gs_ := "", hs_ := "", ds_ := "", ps_ := "p", cs_ := "", rs_ := 0 }

/-- The technique record of `sampleTechnique` against its two units. -/
def sampleTechniqueHeader : ShaderTechniqueHeader :=
  { name_ := "t", vs_ := 0, gs_ := -1, hs_ := -1, ds_ := -1, ps_ := 1, cs_ := -1, rs_ := 0 }

/-- The package of the conversion of `sampleTechnique` under `sampleEnv`. -/
def samplePackage : Package :=
  { outHeader := ⟨1, 0, 0, 0, 2, 1, 0⟩
    outBindingHeaders := [⟨"cb"⟩]
    outBytecodeHeaders := [⟨1, 0, 0, 0, .VS, 0, 4⟩, ⟨1, 0, 0, 0, .PS, 4, 4⟩]
    outBindingMappings := [⟨0, 0⟩, ⟨0, 0⟩]
    outTechniqueHeaders := [sampleTechniqueHeader]
    outSamplerStateHeaders := []
    bytecode := [1, 2, 3, 4, 1, 2, 3, 4] }

/-! ## Functions used to state the properties -/

/-- The headers the bytecode loop appends for a list of units, from a running
offset. -/
def headersFrom (off : Int) : List ShaderCompileOutput → List ShaderBytecodeHeader
  | [] => []
  | compile :: rest =>
    bytecodeHeader off compile :: headersFrom (wrapI32 (off + wrapI32 compile.byteCode.length)) rest

/-- One technique that declares the same entry-point name for its vertex and
its pixel stage. -/
def sameNameTechnique : ShaderTechniqueInfo :=
  { name_ := "t", vs_ := "main", gs_ := "", hs_ := "", ds_ := "", ps_ := "main", cs_ := "",
    rs_ := 0 }

/-- A second technique with the pixel entry point of `sampleTechnique` and a
vertex entry point of its own. -/
def sampleTechnique2 : ShaderTechniqueInfo :=
  { name_ := "u", vs_ := "w", gs_ := "", hs_ := "", ds_ := "", ps_ := "p", cs_ := "", rs_ := 1 }

/-- The four binding categories, in the fixed order of the converter. -/
inductive Category where
  | cbuffer | sampler | srv | uav
  deriving DecidableEq, Repr

/-- The reflected binding list of a unit for a category. -/
def Category.sel : Category → ShaderCompileOutput → List ShaderBinding
  | .cbuffer => (·.cbuffers_)
  | .sampler => (·.samplers_)
  | .srv => (·.srvs_)
  | .uav => (·.uavs_)

/-- The final table of a category. -/
def BindingTables.table (t : BindingTables) : Category → BindingMap
  | .cbuffer => t.cbuffers
  | .sampler => t.samplers
  | .srv => t.srvs
  | .uav => t.uavs

/-- The entries of the four tables in the order in which their records are
serialized: cbuffers, samplers, srvs, uavs. -/
def BindingTables.all (t : BindingTables) : BindingMap :=
  t.cbuffers ++ t.samplers ++ t.srvs ++ t.uavs

/-- The value of `bindingIdx` when the loops of a category start in the
construction of the final tables. -/
def categoryBase (compileOutput : List ShaderCompileOutput) : Category → Int
  | .cbuffer => 0
  | .sampler => (addAllBindings (·.cbuffers_) compileOutput [] 0).2
  | .srv => (addAllBindings (·.samplers_) compileOutput []
      (addAllBindings (·.cbuffers_) compileOutput [] 0).2).2
  | .uav => (addAllBindings (·.srvs_) compileOutput []
      (addAllBindings (·.samplers_) compileOutput []
        (addAllBindings (·.cbuffers_) compileOutput [] 0).2).2).2

/-- The reflected bindings of a category over all units, in compile order. -/
def reflectedBindings (c : Category) (compileOutput : List ShaderCompileOutput) :
    List ShaderBinding :=
  compileOutput.flatMap c.sel

/-- The position of the first occurrence of a name in a list of names (the
length of the list when the name does not occur). -/
def firstIndex (x : String) : List String → Nat
  | [] => 0
  | y :: rest => if y = x then 0 else firstIndex x rest + 1

/-- A table is dense from a base: its keys are pairwise different, the entry at
position `j` holds the index `base + j`, and the running index is `base` plus
the number of entries. -/
def TableOK (base : Int) (st : BindingMap × Int) : Prop :=
  (st.1.map Prod.fst).Nodup ∧ (∀ (j : Nat) p, st.1[j]? = some p → p.2 = base + j) ∧
    st.2 = base + st.1.length

/-- The number of entries in the tables of the categories that come before a
category in the serialized order. -/
def BindingTables.start (t : BindingTables) : Category → Nat
  | .cbuffer => 0
  | .sampler => t.cbuffers.length
  | .srv => t.cbuffers.length + t.samplers.length
  | .uav => t.cbuffers.length + t.samplers.length + t.srvs.length

/-- The bindings of one unit in the order in which the bytecode-header loop
visits them: cbuffers, samplers, srvs, uavs, each with its category. -/
def unitBindings (u : ShaderCompileOutput) : List (Category × ShaderBinding) :=
  u.cbuffers_.map (fun b => (Category.cbuffer, b)) ++ u.samplers_.map (fun b => (Category.sampler, b))
    ++ u.srvs_.map (fun b => (Category.srv, b)) ++ u.uavs_.map (fun b => (Category.uav, b))

/-- The bindings of all units in the order in which mappings are emitted. -/
def emittedBindings (compileOutput : List ShaderCompileOutput) : List (Category × ShaderBinding) :=
  compileOutput.flatMap unitBindings

/-- The mapping the spec asks for a binding of a category: the index found for
its name in the table of the category, and the local slot of the unit. -/
def expectedMapping (tables : BindingTables) (cb : Category × ShaderBinding) : Option Int × Int :=
  (BindingMap.find (tables.table cb.1) cb.2.name_, cb.2.slot_)

/-- The flattened mapping list in the words of the spec: for every unit, in
order, and every category, in order, one mapping for each binding the unit
reflects, as (table index, local slot). -/
def flattenedMappings (tables : BindingTables) (compileOutput : List ShaderCompileOutput) :
    List (Option Int × Int) :=
  compileOutput.flatMap fun u => (unitBindings u).map (expectedMapping tables)

/-- A mapping record seen as (table index, local slot). -/
def ShaderBindingMapping.view (mp : ShaderBindingMapping) : Option Int × Int :=
  (some mp.binding_, mp.dstSlot_)

/-- The sum of the four per-unit binding counts of a bytecode header. -/
def ShaderBytecodeHeader.numBindings (h : ShaderBytecodeHeader) : Int :=
  h.numCBuffers_ + h.numSamplers_ + h.numSRVs_ + h.numUAVs_

/-- A compiler that reflects bindings in all four categories: the unit `v`
uses the constant buffer `view`, the sampler `samp` and the texture `tex`; every
other unit uses the constant buffers `material` and `view` (the latter at a
slot of its own), the same sampler and texture, and the buffer `result`. -/
def reflectCompile (_name _code entryPoint : String) (type : ShaderType) :
    Except String ShaderCompileOutput :=
  if entryPoint = "v" then
    .ok { byteCode := [1, 2, 3], cbuffers_ := [⟨"view", 0⟩], samplers_ := [⟨"samp", 0⟩],
          srvs_ := [⟨"tex", 0⟩], uavs_ := [], type_ := type }
  else
    .ok { byteCode := [4, 5], cbuffers_ := [⟨"material", 0⟩, ⟨"view", 1⟩],
          samplers_ := [⟨"samp", 0⟩], srvs_ := [⟨"tex", 0⟩], uavs_ := [⟨"result", 0⟩],
          type_ := type }

/-- An environment around `reflectCompile`. -/
def reflectEnv : Env :=
  { sourceFile := "b.esf"
    genCode := fun _ => "code"
    compile := reflectCompile
    bindingNameCap := 16
    techniqueNameCap := 16
    samplerStateNameCap := 16
    canCreateDest := true
    dbgAsserts := true }

/-- The two outputs of `reflectCompile` for `sampleTechnique`. -/
def reflectOutputs : List ShaderCompileOutput :=
  [{ byteCode := [1, 2, 3], cbuffers_ := [⟨"view", 0⟩], samplers_ := [⟨"samp", 0⟩],
     srvs_ := [⟨"tex", 0⟩], uavs_ := [], type_ := .VS },
   { byteCode := [4, 5], cbuffers_ := [⟨"material", 0⟩, ⟨"view", 1⟩],
     samplers_ := [⟨"samp", 0⟩], srvs_ := [⟨"tex", 0⟩], uavs_ := [⟨"result", 0⟩],
     type_ := .PS }]

/-- The package of the conversion of `sampleTechnique` under `reflectEnv`. -/
def reflectPackage : Package :=
  { outHeader := ⟨2, 1, 1, 1, 2, 1, 0⟩
    outBindingHeaders := [⟨"view"⟩, ⟨"material"⟩, ⟨"samp"⟩, ⟨"tex"⟩, ⟨"result"⟩]
    outBytecodeHeaders := [⟨1, 1, 1, 0, .VS, 0, 3⟩, ⟨2, 1, 1, 1, .PS, 3, 2⟩]
    outBindingMappings := [⟨0, 0⟩, ⟨2, 0⟩, ⟨3, 0⟩, ⟨1, 0⟩, ⟨0, 1⟩, ⟨2, 0⟩, ⟨3, 0⟩, ⟨4, 0⟩]
    outTechniqueHeaders := [sampleTechniqueHeader]
    outSamplerStateHeaders := []
    bytecode := [1, 2, 3, 4, 5] }

/-! ## Calls made by a conversion -/

/-- The units on which the compile loop invokes the compiler, in call order:
the loop returns at the first diagnostic, so the failing unit is the last one. -/
def compileCalls (compile : String → String → String → ShaderType → Except String ShaderCompileOutput) :
    List CompileInfo → List CompileInfo
  | [] => []
  | c :: rest =>
    match compile c.name_ c.code_ c.entryPoint_ c.type_ with
    | .ok _ => c :: compileCalls compile rest
    | .error _ => [c]

/-- What a run of `Convert` does besides computing the package: the units the
compiler was invoked on (both passes, in call order), whether the destination
file was opened by `WriteShader`, what was written to it, whether
`context.AddOutput` was called, and the returned value. -/
structure ConvertEffects where
  compiled : List CompileInfo
  destOpened : Bool
  written : Option Package
  outputAdded : Bool
  retVal : Bool

/-- The run of `Convert` with its calls.  A diagnostic in a pass returns false
at once (lines 205-209 and 236-240); `WriteShader` is the only place where the
destination is opened, and `AddOutput` is called only when it returned true. -/
def ConvertRun (env : Env) (techniques : List ShaderTechniqueInfo)
    (samplerStates : List ShaderSamplerStateInfo) : ConvertEffects :=
  let calls1 := compileCalls env.compile (pass1 env techniques).1
  match (pass1 env techniques).2.2 with
  | some _ => ⟨calls1, false, none, false, false⟩
  | none =>
    let calls2 := compileCalls env.compile (pass2 env techniques).1
    match (pass2 env techniques).2.2 with
    | some _ => ⟨calls1 ++ calls2, false, none, false, false⟩
    | none =>
      match Convert env techniques samplerStates with
      | .ok pkg => ⟨calls1 ++ calls2, true, some pkg, true, true⟩
      | .error .destNotCreated => ⟨calls1 ++ calls2, true, none, false, false⟩
      | .error _ => ⟨calls1 ++ calls2, false, none, false, false⟩

/-! ## Handles (`src/core/handle.h`) -/

/-- The constant `Handle::MAX_INDEX`, `(1 << 16) - 1`. -/
def MAX_INDEX : Nat := (1 <<< 16) - 1

/-- The constant `Handle::MAX_MAGIC`, `(1 << 12) - 1`. -/
def MAX_MAGIC : Nat := (1 <<< 12) - 1

/-- The constant `Handle::MAX_TYPE`, `(1 << 4) - 1`. -/
def MAX_TYPE : Nat := (1 <<< 4) - 1

/-- The three bit fields of `Core::Handle`: `index_` has 16 bits, `magic_` has 12
and `type_` has 4. -/
structure Handle where
  index_ : Nat
  magic_ : Nat
  type_ : Nat
  deriving DecidableEq, Repr

/-- The values the bit fields can hold. -/
def Handle.InRange (h : Handle) : Prop :=
  h.index_ < 2 ^ 16 ∧ h.magic_ < 2 ^ 12 ∧ h.type_ < 2 ^ 4

/-- The position `handle.index_ + (handle.type_ * Handle::MAX_INDEX)` that
`HandleAllocator::IsValid` reads in `magicIDs_`. -/
def Handle.slot (h : Handle) : Nat := h.index_ + h.type_ * MAX_INDEX

/-- The method `HandleAllocator::IsValid`, over the array `magicIDs_`. -/
def IsValid (magicIDs : Nat → Nat) (handle : Handle) : Bool :=
  magicIDs handle.slot == handle.magic_

/-! ## More sample inputs -/

/-- A compiler that returns a diagnostic for the entry point `g` and succeeds,
like `sampleCompile`, on every other unit. -/
def failingCompile (name code entryPoint : String) (type : ShaderType) :
    Except String ShaderCompileOutput :=
  if entryPoint = "g" then .error "error X3000: syntax error" else
    sampleCompile name code entryPoint type

/-- An environment around `failingCompile`. -/
def failingEnv : Env :=
  { sourceFile := "a.esf"
    genCode := fun _ => "code"
    compile := failingCompile
    bindingNameCap := 8
    techniqueNameCap := 8
    samplerStateNameCap := 8
    canCreateDest := true
    dbgAsserts := true }

/-- One technique with three stages: vertex `v`, geometry `g` and pixel `p`. -/
def threeStageTechnique : ShaderTechniqueInfo :=
  { name_ := "t", vs_ := "v", gs_ := "g", hs_ := "", ds_ := "", ps_ := "p", cs_ := "", rs_ := 0 }

/-- A compiler whose reflection depends on the generated code: for the code of
the first pass it reflects the constant buffers `a` and `b`, for any other code
only `b`. -/
def driftCompile (_name code _entryPoint : String) (type : ShaderType) :
    Except String ShaderCompileOutput :=
  .ok { byteCode := [1]
        cbuffers_ := if code = "unbound" then [⟨"a", 0⟩, ⟨"b", 1⟩] else [⟨"b", 0⟩]
        samplers_ := []
        srvs_ := []
        uavs_ := []
        type_ := type }

/-- An environment around `driftCompile`: the generator emits the code
`unbound` for an empty binding map and `bound` otherwise. -/
def driftEnv : Env :=
  { sourceFile := "c.esf"
    genCode := fun m => if m = [] then "unbound" else "bound"
    compile := driftCompile
    bindingNameCap := 8
    techniqueNameCap := 8
    samplerStateNameCap := 8
    canCreateDest := true
    dbgAsserts := true }

/-- One technique with a compute stage only. -/
def computeTechnique : ShaderTechniqueInfo :=
  { name_ := "t", vs_ := "", gs_ := "", hs_ := "", ds_ := "", ps_ := "", cs_ := "c", rs_ := 0 }

/-- One technique with a pixel stage only: neither a vertex nor a compute
entry point. -/
def pixelOnlyTechnique : ShaderTechniqueInfo :=
  { name_ := "t", vs_ := "", gs_ := "", hs_ := "", ds_ := "", ps_ := "p", cs_ := "", rs_ := 0 }

/-- The environment `sampleEnv` with `DBG_ASSERT` compiled out. -/
def releaseEnv : Env :=
  { sourceFile := "a.esf"
    genCode := fun _ => "code"
    compile := sampleCompile
    bindingNameCap := 8
    techniqueNameCap := 8
    samplerStateNameCap := 8
    canCreateDest := true
    dbgAsserts := false }

/-- A compiler that succeeds on every unit and reflects no bindings. -/
def plainCompile (_name _code _entryPoint : String) (type : ShaderType) :
    Except String ShaderCompileOutput :=
  .ok { byteCode := [7], cbuffers_ := [], samplers_ := [], srvs_ := [], uavs_ := [],
        type_ := type }

/-- An environment around `plainCompile`. -/
def plainEnv : Env :=
  { sourceFile := "a.esf"
    genCode := fun _ => "code"
    compile := plainCompile
    bindingNameCap := 8
    techniqueNameCap := 8
    samplerStateNameCap := 8
    canCreateDest := true
    dbgAsserts := true }

/-- A compiler that returns 2^31 bytes of bytecode for every unit and reflects
no bindings. -/
def hugeCompile (_name _code _entryPoint : String) (type : ShaderType) :
    Except String ShaderCompileOutput :=
  .ok { byteCode := List.replicate 2147483648 0, cbuffers_ := [], samplers_ := [], srvs_ := [],
        uavs_ := [], type_ := type }

/-- An environment around `hugeCompile`. -/
def hugeEnv : Env :=
  { sourceFile := "a.esf"
    genCode := fun _ => "code"
    compile := hugeCompile
    bindingNameCap := 8
    techniqueNameCap := 8
    samplerStateNameCap := 8
    canCreateDest := true
    dbgAsserts := true }

/-- A compiler that reflects one constant buffer with a name of 15 characters. -/
def longNameCompile (_name _code _entryPoint : String) (type : ShaderType) :
    Except String ShaderCompileOutput :=
  .ok { byteCode := [7], cbuffers_ := [⟨"constants_block", 0⟩], samplers_ := [], srvs_ := [],
        uavs_ := [], type_ := type }

/-- An environment around `longNameCompile`, with name fields of 8 characters. -/
def longNameEnv : Env :=
  { sourceFile := "a.esf"
    genCode := fun _ => "code"
    compile := longNameCompile
    bindingNameCap := 8
    techniqueNameCap := 8
    samplerStateNameCap := 8
    canCreateDest := true
    dbgAsserts := true }

/-- One technique with a name of 14 characters. -/
def longNameTechnique : ShaderTechniqueInfo :=
  { name_ := "TECH_long_name", vs_ := "v", gs_ := "", hs_ := "", ds_ := "", ps_ := "", cs_ := "",
    rs_ := 0 }

/-- One sampler state with a name of 13 characters. -/
def longNameSamplerState : ShaderSamplerStateInfo :=
  { name_ := "SS_long_names", state_ := 3 }

/-- The output of a unit that reflects the name `x` both as a constant buffer
and as a shader-resource view. -/
def twoCategoryOutputs : List ShaderCompileOutput :=
  [{ byteCode := [7], cbuffers_ := [⟨"x", 0⟩], samplers_ := [], srvs_ := [⟨"x", 0⟩], uavs_ := [],
     type_ := .VS }]

/-- The output of `hugeCompile` for a compute unit. -/
def hugeOutput : ShaderCompileOutput :=
  { byteCode := List.replicate 2147483648 0, cbuffers_ := [], samplers_ := [], srvs_ := [],
    uavs_ := [], type_ := .CS }

/-! ## Shape of a successful conversion -/

/-- A conversion that produced a package went through both passes without a
diagnostic, both record loops ran to their end, the destination was created,
and the package holds exactly the assembled records. -/
theorem Convert_ok_inv {env : Env} {techniques : List ShaderTechniqueInfo}
    {samplerStates : List ShaderSamplerStateInfo} {pkg : Package}
    (h : Convert env techniques samplerStates = .ok pkg) :
    (pass1 env techniques).2.2 = none ∧ (pass2 env techniques).2.2 = none ∧
    ∃ st ths,
      bytecodeLoop (finalTables (pass2 env techniques).2.1) (pass2 env techniques).2.1
        ⟨0, [], []⟩ = some st ∧
      techniqueLoop env.dbgAsserts env.techniqueNameCap (pass2 env techniques).1 techniques []
        = some ths ∧
      env.canCreateDest = true ∧
      pkg = { outHeader := makeHeader (finalTables (pass2 env techniques).2.1)
                (pass2 env techniques).2.1 techniques samplerStates
              outBindingHeaders := bindingHeaders env.bindingNameCap
                (finalTables (pass2 env techniques).2.1)
              outBytecodeHeaders := st.outBytecodeHeaders
              outBindingMappings := st.outBindingMappings
              outTechniqueHeaders := ths
              outSamplerStateHeaders := samplerStateHeaders env.samplerStateNameCap samplerStates
              bytecode := writtenBytecode (pass2 env techniques).2.1 } := by
  unfold Convert at h
  split at h
  · cases h
  · rename_i h1
    split at h
    · cases h
    · rename_i h2
      simp only at h
      split at h
      · cases h
      · rename_i st hst
        split at h
        · cases h
        · rename_i ths hths
          split at h
          · rename_i hc
            refine ⟨h1, h2, st, ths, hst, hths, hc, ?_⟩
            injection h with h
            exact h.symm
          · cases h

/-! ## Bytecode headers -/

theorem wrapI32_of_range {x : Int} (h0 : -2147483648 ≤ x) (h1 : x < 2147483648) :
    wrapI32 x = x := by
  unfold wrapI32; omega

theorem bytecodeStep_headers {tables : BindingTables} {st st1 : BytecodeState}
    {compile : ShaderCompileOutput} (h : bytecodeStep tables st compile = some st1) :
    st1.outBytecodeHeaders = st.outBytecodeHeaders ++ [bytecodeHeader st.bytecodeOffset compile] ∧
    st1.bytecodeOffset = wrapI32 (st.bytecodeOffset + wrapI32 compile.byteCode.length) := by
  unfold bytecodeStep at h
  simp only at h
  split at h
  · cases h
  · split at h
    · cases h
    · split at h
      · cases h
      · split at h
        · cases h
        · injection h with h
          subst h
          exact ⟨rfl, rfl⟩

theorem bytecodeLoop_headers {tables : BindingTables} :
    ∀ (outs : List ShaderCompileOutput) (st st1 : BytecodeState),
      bytecodeLoop tables outs st = some st1 →
      st1.outBytecodeHeaders = st.outBytecodeHeaders ++ headersFrom st.bytecodeOffset outs
  | [], st, st1, h => by
    simp only [bytecodeLoop] at h
    injection h with h
    subst h
    simp [headersFrom]
  | compile :: rest, st, st1, h => by
    simp only [bytecodeLoop] at h
    split at h
    · cases h
    · rename_i st2 h2
      have ih := bytecodeLoop_headers rest st2 st1 h
      obtain ⟨hh, ho⟩ := bytecodeStep_headers h2
      rw [ih, hh, ho]
      simp [headersFrom]

theorem writtenBytecode_cons (compile : ShaderCompileOutput) (rest : List ShaderCompileOutput) :
    (writtenBytecode (compile :: rest)).length
      = compile.byteCode.length + (writtenBytecode rest).length := by
  simp [writtenBytecode]

/-- The three offset properties of the headers built from a running offset,
when the offset and the bytes still to come stay below 2^31. -/
theorem headersFrom_offsets :
    ∀ (outs : List ShaderCompileOutput) (off : Int), 0 ≤ off →
      off + ((writtenBytecode outs).length : Int) < 2147483648 →
      (∀ a, (headersFrom off outs).head? = some a → a.offset_ = off) ∧
      (∀ i a b, (headersFrom off outs)[i]? = some a → (headersFrom off outs)[i + 1]? = some b →
        b.offset_ = a.offset_ + a.numBytes_) ∧
      (∀ z, (headersFrom off outs).getLast? = some z →
        z.offset_ + z.numBytes_ = off + ((writtenBytecode outs).length : Int))
  | [], off, _, _ => by simp [headersFrom]
  | compile :: rest, off, h0, h1 => by
    rw [writtenBytecode_cons] at h1
    push_cast at h1
    have hlen : wrapI32 (compile.byteCode.length : Int) = compile.byteCode.length :=
      wrapI32_of_range (by omega) (by omega)
    have hoff : wrapI32 (off + wrapI32 (compile.byteCode.length : Int))
        = off + compile.byteCode.length := by
      rw [hlen]; exact wrapI32_of_range (by omega) (by omega)
    obtain ⟨ih1, ih2, ih3⟩ := headersFrom_offsets rest (off + compile.byteCode.length)
      (by omega) (by omega)
    have hunf : headersFrom off (compile :: rest)
        = bytecodeHeader off compile :: headersFrom (off + compile.byteCode.length) rest := by
      simp only [headersFrom, hoff]
    rw [hunf]
    refine ⟨?_, ?_, ?_⟩
    · intro a ha
      simp only [List.head?_cons, Option.some.injEq] at ha
      subst ha; rfl
    · intro i a b ha hb
      cases i with
      | zero =>
        simp only [List.getElem?_cons_zero, Option.some.injEq] at ha
        simp only [zero_add, List.getElem?_cons_succ] at hb
        have hb0 : (headersFrom (off + compile.byteCode.length) rest).head? = some b := by
          rw [List.head?_eq_getElem?]; exact hb
        rw [ih1 b hb0, ← ha]
        simp [bytecodeHeader, hlen]
      | succ j =>
        simp only [List.getElem?_cons_succ] at ha hb
        exact ih2 j a b ha hb
    · intro z hz
      rw [writtenBytecode_cons]
      push_cast
      cases hr : headersFrom (off + compile.byteCode.length) rest with
      | nil =>
        rw [hr] at hz
        simp only [List.getLast?_singleton, Option.some.injEq] at hz
        cases rest with
        | nil =>
          subst hz
          simp [bytecodeHeader, hlen, writtenBytecode]
        | cons c r => simp [headersFrom] at hr
      | cons x xs =>
        rw [hr] at hz
        rw [List.getLast?_cons_cons] at hz
        rw [hr] at ih3
        have := ih3 z hz
        omega

/-- Claim C1.  In a package that Convert produced, when the bytecode written
in total stays below 2^31 bytes: the first bytecode header has offset 0, each
later header starts where its predecessor ends (offset plus numBytes), and the
last header ends at the total number of bytecode bytes written. -/
theorem C1_bytecode_offsets_chain (env : Env) (techniques : List ShaderTechniqueInfo)
    (samplerStates : List ShaderSamplerStateInfo) (pkg : Package)
    (hok : Convert env techniques samplerStates = .ok pkg)
    (hfit : (pkg.bytecode.length : Int) < 2147483648) :
    (∀ a, pkg.outBytecodeHeaders.head? = some a → a.offset_ = 0) ∧
    (∀ i a b, pkg.outBytecodeHeaders[i]? = some a → pkg.outBytecodeHeaders[i + 1]? = some b →
      b.offset_ = a.offset_ + a.numBytes_) ∧
    (∀ z, pkg.outBytecodeHeaders.getLast? = some z →
      z.offset_ + z.numBytes_ = (pkg.bytecode.length : Int)) := by
  obtain ⟨_, _, st, ths, hst, _, _, hpkg⟩ := Convert_ok_inv hok
  have hh := bytecodeLoop_headers _ _ _ hst
  simp only [List.nil_append] at hh
  subst hpkg
  simp only at hfit ⊢
  rw [hh]
  have := headersFrom_offsets (pass2 env techniques).2.1 0 (le_refl 0) (by omega)
  simpa using this

/-! ## The set of shaders gathered from the techniques -/

theorem mem_setInsert {s : List String} {x e : String} :
    e ∈ setInsert s x ↔ e ∈ s ∨ e = x := by
  unfold setInsert
  split
  · rename_i hx
    constructor
    · exact Or.inl
    · rintro (h | h)
      · exact h
      · subst h; exact hx
  · simp

theorem nodup_setInsert {s : List String} {x : String} (h : s.Nodup) :
    (setInsert s x).Nodup := by
  unfold setInsert
  split
  · exact h
  · rename_i hx
    rw [List.nodup_append]
    refine ⟨h, List.nodup_singleton x, ?_⟩
    intro a ha hb
    simp only [List.mem_singleton] at hb
    subst hb
    exact hx ha

theorem gatherOne_apply (s : ShaderType → List String) (k : ShaderType) (n : String)
    (k1 : ShaderType) :
    gatherOne s k n k1 = if k1 = k ∧ 0 < n.length then setInsert (s k) n else s k1 := by
  unfold gatherOne
  by_cases hn : n.length > 0
  · by_cases hk : k1 = k
    · subst hk; simp [hn]
    · simp [hn, hk, Function.update_noteq hk]
  · simp [hn]

theorem gatherTechnique_apply (s : ShaderType → List String) (t : ShaderTechniqueInfo)
    (k : ShaderType) :
    gatherTechnique s t k
      = if 0 < (t.entry k).length then setInsert (s k) (t.entry k) else s k := by
  unfold gatherTechnique
  cases k <;> simp [gatherOne_apply, ShaderTechniqueInfo.entry]

theorem mem_foldl_gather (k : ShaderType) (e : String) :
    ∀ (techniques : List ShaderTechniqueInfo) (s : ShaderType → List String),
      e ∈ (techniques.foldl gatherTechnique s) k ↔
        e ∈ s k ∨ (0 < e.length ∧ ∃ t ∈ techniques, t.entry k = e)
  | [], s => by simp
  | t :: rest, s => by
    rw [List.foldl_cons, mem_foldl_gather k e rest, gatherTechnique_apply]
    constructor
    · rintro (h | ⟨hl, t1, ht1, he⟩)
      · split at h
        · rename_i hpos
          rcases mem_setInsert.mp h with h | h
          · exact Or.inl h
          · refine Or.inr ⟨by rw [h]; exact hpos, t, List.mem_cons_self _ _, h.symm⟩
        · exact Or.inl h
      · exact Or.inr ⟨hl, t1, List.mem_cons_of_mem _ ht1, he⟩
    · rintro (h | ⟨hl, t1, ht1, he⟩)
      · left
        split
        · exact mem_setInsert.mpr (Or.inl h)
        · exact h
      · rcases List.mem_cons.mp ht1 with h1 | h1
        · subst h1
          left
          rw [he, if_pos hl]
          exact mem_setInsert.mpr (Or.inr rfl)
        · exact Or.inr ⟨hl, t1, h1, he⟩

theorem nodup_foldl_gather (k : ShaderType) :
    ∀ (techniques : List ShaderTechniqueInfo) (s : ShaderType → List String),
      (s k).Nodup → ((techniques.foldl gatherTechnique s) k).Nodup
  | [], _, h => h
  | t :: rest, s, h => by
    rw [List.foldl_cons]
    apply nodup_foldl_gather k rest
    rw [gatherTechnique_apply]
    split
    · exact nodup_setInsert h
    · exact h

/-- The set gathered for a stage kind holds exactly the non-empty entry-point
names that some technique declares for that stage kind. -/
theorem mem_gatherShaders {techniques : List ShaderTechniqueInfo} {k : ShaderType} {e : String} :
    e ∈ gatherShaders techniques k ↔ 0 < e.length ∧ ∃ t ∈ techniques, t.entry k = e := by
  unfold gatherShaders
  rw [mem_foldl_gather]
  simp

theorem nodup_gatherShaders (techniques : List ShaderTechniqueInfo) (k : ShaderType) :
    (gatherShaders techniques k).Nodup :=
  nodup_foldl_gather k techniques _ List.nodup_nil

/-! ## The list of units handed to the compiler -/

theorem mem_makeCompileInfo {sourceFile code : String} {shaders : ShaderType → List String}
    {c : CompileInfo} :
    c ∈ makeCompileInfo sourceFile code shaders ↔
      c.name_ = sourceFile ∧ c.code_ = code ∧ c.entryPoint_ ∈ shaders c.type_ := by
  unfold makeCompileInfo
  simp only [List.mem_flatMap, List.mem_map]
  constructor
  · rintro ⟨k, _, shader, hs, rfl⟩
    exact ⟨rfl, rfl, hs⟩
  · rintro ⟨h1, h2, h3⟩
    refine ⟨c.type_, by cases c.type_ <;> simp [ShaderType.all], c.entryPoint_, h3, ?_⟩
    cases c
    simp only at h1 h2
    subst h1 h2
    rfl

theorem makeCompileInfo_pairs (sourceFile code : String) (shaders : ShaderType → List String) :
    (makeCompileInfo sourceFile code shaders).map (fun c => (c.type_, c.entryPoint_))
      = ShaderType.all.flatMap fun k => (shaders k).map fun shader => (k, shader) := by
  unfold makeCompileInfo
  rw [List.map_flatMap]
  simp [List.map_map, Function.comp_def]

theorem nodup_makeCompileInfo_pairs (sourceFile code : String)
    (shaders : ShaderType → List String) (hnd : ∀ k, (shaders k).Nodup) :
    ((makeCompileInfo sourceFile code shaders).map (fun c => (c.type_, c.entryPoint_))).Nodup := by
  rw [makeCompileInfo_pairs, List.nodup_flatMap]
  constructor
  · intro k _
    exact (hnd k).map (fun a b h => (Prod.mk.inj h).2)
  · have hall : ShaderType.all.Nodup := by decide
    refine hall.imp ?_
    intro a b hab
    simp only [Function.onFun]
    rw [List.disjoint_left]
    intro p hp hq
    simp only [List.mem_map] at hp hq
    obtain ⟨_, _, rfl⟩ := hp
    obtain ⟨_, _, h⟩ := hq
    exact hab (Prod.mk.inj h).1.symm

/-- The units of the second pass are built from the gathered sets. -/
theorem pass2_compileInfo (env : Env) (techniques : List ShaderTechniqueInfo) :
    (pass2 env techniques).1
      = makeCompileInfo env.sourceFile (env.genCode (usedBindings (pass1 env techniques).2.1))
          (gatherShaders techniques) := rfl

/-- A name is the entry point of some unit of the second pass exactly when it
is non-empty and some technique declares it for some stage kind. -/
theorem mem_pass2_entryPoints {env : Env} {techniques : List ShaderTechniqueInfo} {e : String} :
    (∃ c ∈ (pass2 env techniques).1, c.entryPoint_ = e) ↔
      0 < e.length ∧ ∃ t ∈ techniques, ∃ k, t.entry k = e := by
  rw [pass2_compileInfo]
  constructor
  · rintro ⟨c, hc, rfl⟩
    obtain ⟨_, _, h⟩ := mem_makeCompileInfo.mp hc
    obtain ⟨hl, t, ht, he⟩ := mem_gatherShaders.mp h
    exact ⟨hl, t, ht, c.type_, he⟩
  · rintro ⟨hl, t, ht, k, he⟩
    refine ⟨⟨env.sourceFile, _, e, k⟩, mem_makeCompileInfo.mpr ⟨rfl, rfl, ?_⟩, rfl⟩
    exact mem_gatherShaders.mpr ⟨hl, t, ht, he⟩

/-! ## The compile loop -/

theorem compileLoop_ok
    (compile : String → String → String → ShaderType → Except String ShaderCompileOutput) :
    ∀ (cis : List CompileInfo) (acc outs : List ShaderCompileOutput),
      compileLoop compile cis acc = (outs, none) →
      ∃ res, outs = acc ++ res ∧
        List.Forall₂ (fun c o => compile c.name_ c.code_ c.entryPoint_ c.type_ = .ok o) cis res
  | [], acc, outs, h => by
    simp only [compileLoop, Prod.mk.injEq, and_true] at h
    exact ⟨[], by simp [h], List.Forall₂.nil⟩
  | c :: rest, acc, outs, h => by
    simp only [compileLoop] at h
    split at h
    · rename_i out hout
      obtain ⟨res, hres, hall⟩ := compileLoop_ok compile rest _ _ h
      exact ⟨out :: res, by simp [hres], List.Forall₂.cons hout hall⟩
    · simp at h

/-- When the second pass ends without a diagnostic, its outputs are the
results of compiling its units, one for one and in the same order. -/
theorem pass2_outputs {env : Env} {techniques : List ShaderTechniqueInfo}
    (h : (pass2 env techniques).2.2 = none) :
    List.Forall₂ (fun c o => env.compile c.name_ c.code_ c.entryPoint_ c.type_ = .ok o)
      (pass2 env techniques).1 (pass2 env techniques).2.1 := by
  have hl : compileLoop env.compile (pass2 env techniques).1 []
      = ((pass2 env techniques).2.1, none) := by
    rw [← h]; rfl
  obtain ⟨res, hres, hall⟩ := compileLoop_ok env.compile _ _ _ hl
  simp only [List.nil_append] at hres
  rw [hres]
  exact hall

/-! ## Resolution of technique stages -/

theorem findShaderLoop_eq_neg_one (name : String) :
    ∀ (cis : List CompileInfo) (idx : Int), 0 ≤ idx →
      (findShaderLoop name cis idx = -1 ↔ ∀ c ∈ cis, c.entryPoint_ ≠ name)
  | [], idx, _ => by simp [findShaderLoop]
  | c :: rest, idx, h0 => by
    simp only [findShaderLoop]
    split
    · rename_i hc
      constructor
      · intro h; omega
      · intro h; exact absurd hc (h c (List.mem_cons_self _ _))
    · rename_i hc
      rw [findShaderLoop_eq_neg_one name rest (idx + 1) (by omega)]
      simp [hc]

theorem findShaderLoop_found (name : String) :
    ∀ (cis : List CompileInfo) (idx : Int),
      findShaderLoop name cis idx ≠ -1 →
      ∃ j : Nat, findShaderLoop name cis idx = idx + j ∧
        ∃ c, cis[j]? = some c ∧ c.entryPoint_ = name
  | [], idx, h => by simp [findShaderLoop] at h
  | c :: rest, idx, h => by
    simp only [findShaderLoop] at h ⊢
    split
    · rename_i hc
      exact ⟨0, by simp, c, by simp, hc⟩
    · rename_i hc
      rw [if_neg hc] at h
      obtain ⟨j, hj, c1, hc1, he⟩ := findShaderLoop_found name rest (idx + 1) h
      refine ⟨j + 1, ?_, c1, by simpa using hc1, he⟩
      rw [hj]; push_cast; omega

theorem techniqueHeader_stage (cap : Nat) (cis : List CompileInfo) (t : ShaderTechniqueInfo)
    (k : ShaderType) :
    (techniqueHeader cap cis t).stage k = findShaderLoop (t.entry k) cis 0 := by
  cases k <;> rfl

theorem techniqueLoop_eq (d : Bool) (cap : Nat) (cis : List CompileInfo) :
    ∀ (techniques : List ShaderTechniqueInfo) (acc ths : List ShaderTechniqueHeader),
      techniqueLoop d cap cis techniques acc = some ths →
      ths = acc ++ techniques.map (techniqueHeader cap cis)
  | [], acc, ths, h => by
    simp only [techniqueLoop, Option.some.injEq] at h
    simp [h]
  | t :: rest, acc, ths, h => by
    simp only [techniqueLoop] at h
    split at h
    · cases h
    · rw [techniqueLoop_eq d cap cis rest _ _ h]
      simp

/-- The technique records of a produced package: one for each technique, in
order, each built by `techniqueHeader` against the units of the second pass. -/
theorem Convert_techniqueHeaders {env : Env} {techniques : List ShaderTechniqueInfo}
    {samplerStates : List ShaderSamplerStateInfo} {pkg : Package}
    (h : Convert env techniques samplerStates = .ok pkg) :
    pkg.outTechniqueHeaders
      = techniques.map (techniqueHeader env.techniqueNameCap (pass2 env techniques).1) := by
  obtain ⟨_, _, st, ths, _, hths, _, hpkg⟩ := Convert_ok_inv h
  have := techniqueLoop_eq _ _ _ _ _ _ hths
  subst hpkg
  simpa using this

theorem string_length_pos_iff {s : String} : 0 < s.length ↔ s ≠ "" := by
  cases s with
  | mk d =>
    cases d with
    | nil => simp [String.length]
    | cons a as =>
      simp only [String.length, List.length_cons, Nat.zero_lt_succ, true_iff]
      intro h
      have := congrArg String.data h
      simp at this

theorem forall₂_getElem? {α β : Type} {R : α → β → Prop} :
    ∀ {l1 : List α} {l2 : List β}, List.Forall₂ R l1 l2 →
      ∀ (i : Nat) (a : α), l1[i]? = some a → ∃ b, l2[i]? = some b ∧ R a b
  | _, _, .nil, i, a, h => by simp at h
  | _, _, .cons hr hrest, i, a, h => by
    cases i with
    | zero =>
      simp only [List.getElem?_cons_zero, Option.some.injEq] at h
      subst h
      exact ⟨_, by simp, hr⟩
    | succ j =>
      simp only [List.getElem?_cons_succ] at h ⊢
      exact forall₂_getElem? hrest j a h

theorem headersFrom_length :
    ∀ (outs : List ShaderCompileOutput) (off : Int), (headersFrom off outs).length = outs.length
  | [], _ => rfl
  | c :: rest, off => by simp [headersFrom, headersFrom_length rest]

/-- In a produced package there is one bytecode header for each unit of the
second pass, and the unit count of the header is that number. -/
theorem Convert_unit_counts {env : Env} {techniques : List ShaderTechniqueInfo}
    {samplerStates : List ShaderSamplerStateInfo} {pkg : Package}
    (h : Convert env techniques samplerStates = .ok pkg) :
    pkg.outBytecodeHeaders.length = (pass2 env techniques).1.length ∧
    pkg.outHeader.numShaders_ = ((pass2 env techniques).1.length : Int) ∧
    (pass2 env techniques).2.1.length = (pass2 env techniques).1.length := by
  obtain ⟨_, h2, st, ths, hst, _, _, hpkg⟩ := Convert_ok_inv h
  have hlen := (pass2_outputs h2).length_eq
  have hh := bytecodeLoop_headers _ _ _ hst
  subst hpkg
  simp only [List.nil_append] at hh
  simp only [hh, headersFrom_length, makeHeader]
  exact ⟨hlen.symm, by rw [hlen], hlen.symm⟩

theorem countP_eq_one_of_nodup_map {α β : Type} [DecidableEq β] (f : α → β) (b : β) :
    ∀ (l : List α), (l.map f).Nodup → b ∈ l.map f →
      l.countP (fun a => decide (f a = b)) = 1
  | [], _, hb => by simp at hb
  | a :: l, hnd, hb => by
    rw [List.map_cons, List.nodup_cons] at hnd
    rw [List.countP_cons]
    by_cases hab : f a = b
    · have h0 : l.countP (fun a => decide (f a = b)) = 0 := by
        rw [List.countP_eq_zero]
        intro x hx hfx
        simp only [decide_eq_true_eq] at hfx
        exact hnd.1 (by rw [hab, ← hfx]; exact List.mem_map_of_mem f hx)
      simp [hab, h0]
    · have hb1 : b ∈ l.map f := by
        rcases List.mem_cons.mp hb with h | h
        · exact absurd h.symm hab
        · exact h
      simp [hab, countP_eq_one_of_nodup_map f b l hnd.2 hb1]

/-! ## Claims on the technique records and on the units -/

/-- Claim C2.  For every technique of the list and each of the six stage kinds,
the stage index of the record built for the technique is -1 exactly when the
technique declares an empty entry-point name for that stage; and the technique
records of a produced package are these records, one per technique, in order. -/
theorem C2_stage_index_absent_iff_name_empty (env : Env)
    (techniques : List ShaderTechniqueInfo) :
    (∀ t ∈ techniques, ∀ k : ShaderType,
      ((techniqueHeader env.techniqueNameCap (pass2 env techniques).1 t).stage k = -1
        ↔ t.entry k = "")) ∧
    (∀ (samplerStates : List ShaderSamplerStateInfo) (pkg : Package),
      Convert env techniques samplerStates = .ok pkg →
      pkg.outTechniqueHeaders
        = techniques.map (techniqueHeader env.techniqueNameCap (pass2 env techniques).1)) := by
  refine ⟨?_, fun _ _ h => Convert_techniqueHeaders h⟩
  intro t ht k
  rw [techniqueHeader_stage, findShaderLoop_eq_neg_one _ _ _ (le_refl 0)]
  constructor
  · intro h
    by_contra hne
    have hpos : 0 < (t.entry k).length := string_length_pos_iff.mpr hne
    obtain ⟨c, hc, he⟩ := (@mem_pass2_entryPoints env techniques (t.entry k)).mpr ⟨hpos, t, ht, k, rfl⟩
    exact h c hc he
  · intro h c hc he
    have := ((@mem_pass2_entryPoints env techniques (t.entry k)).mp ⟨c, hc, he⟩).1
    rw [h] at this
    simp at this

/-- Claim C3.  In a produced package, a stage index of a technique record that
is not -1 lies in the range from 0 up to (not including) the unit count of the
header, and the unit of the second pass at that index, together with the
compiler output stored at the same index, has exactly the entry-point name the
technique declares for that stage. -/
theorem C3_resolved_index_in_range_and_matches (env : Env)
    (techniques : List ShaderTechniqueInfo) (samplerStates : List ShaderSamplerStateInfo)
    (pkg : Package) (hok : Convert env techniques samplerStates = .ok pkg)
    (i : Nat) (t : ShaderTechniqueInfo) (h : ShaderTechniqueHeader) (k : ShaderType)
    (ht : techniques[i]? = some t) (hh : pkg.outTechniqueHeaders[i]? = some h)
    (hne : h.stage k ≠ -1) :
    0 ≤ h.stage k ∧ h.stage k < pkg.outHeader.numShaders_ ∧
    ∃ c out, (pass2 env techniques).1[(h.stage k).toNat]? = some c ∧
      c.entryPoint_ = t.entry k ∧
      (pass2 env techniques).2.1[(h.stage k).toNat]? = some out ∧
      env.compile c.name_ c.code_ c.entryPoint_ c.type_ = .ok out := by
  obtain ⟨_, h2, _⟩ := Convert_ok_inv hok
  obtain ⟨_, hnum, _⟩ := Convert_unit_counts hok
  rw [Convert_techniqueHeaders hok, List.getElem?_map, ht] at hh
  simp only [Option.map_some', Option.some.injEq] at hh
  subst hh
  rw [techniqueHeader_stage] at hne ⊢
  obtain ⟨j, hj, c, hc, he⟩ := findShaderLoop_found _ _ _ hne
  have hjlt : j < (pass2 env techniques).1.length := by
    rcases List.getElem?_eq_some.mp hc with ⟨hlt, _⟩
    exact hlt
  obtain ⟨out, hout, hcomp⟩ := forall₂_getElem? (pass2_outputs h2) j c hc
  rw [hj, hnum]
  simp only [zero_add, Int.toNat_ofNat]
  exact ⟨by omega, by omega, c, out, hc, he, hout, hcomp⟩

/-- Claim C1 at the conversion of `sampleTechnique` under `sampleEnv`: two units of four
bytes each. -/
theorem C1_bytecode_offsets_chain_witness :
    Convert sampleEnv [sampleTechnique] [] = .ok samplePackage ∧
    ((∀ a, samplePackage.outBytecodeHeaders.head? = some a → a.offset_ = 0) ∧
     (∀ i a b, samplePackage.outBytecodeHeaders[i]? = some a →
        samplePackage.outBytecodeHeaders[i + 1]? = some b → b.offset_ = a.offset_ + a.numBytes_) ∧
     (∀ z, samplePackage.outBytecodeHeaders.getLast? = some z →
        z.offset_ + z.numBytes_ = (samplePackage.bytecode.length : Int))) :=
  ⟨rfl, C1_bytecode_offsets_chain sampleEnv [sampleTechnique] [] samplePackage rfl (by decide)⟩

/-- Claim C3 at the pixel stage of `sampleTechnique` under `sampleEnv`: index 1 of 2. -/
theorem C3_resolved_index_in_range_and_matches_witness :
    Convert sampleEnv [sampleTechnique] [] = .ok samplePackage ∧
    sampleTechniqueHeader.stage .PS = 1 ∧
    (0 ≤ sampleTechniqueHeader.stage .PS ∧
      sampleTechniqueHeader.stage .PS < samplePackage.outHeader.numShaders_ ∧
      ∃ c out, (pass2 sampleEnv [sampleTechnique]).1[(sampleTechniqueHeader.stage .PS).toNat]?
          = some c ∧
        c.entryPoint_ = sampleTechnique.entry .PS ∧
        (pass2 sampleEnv [sampleTechnique]).2.1[(sampleTechniqueHeader.stage .PS).toNat]?
          = some out ∧
        sampleEnv.compile c.name_ c.code_ c.entryPoint_ c.type_ = .ok out) :=
  ⟨rfl, rfl, C3_resolved_index_in_range_and_matches sampleEnv [sampleTechnique] [] samplePackage
    rfl 0 sampleTechnique sampleTechniqueHeader .PS rfl rfl (by decide)⟩

/-- Claim C4, evaluated where it fails.  A technique that declares the name
`main` for its vertex and for its pixel stage yields two units, (VS, main) at
index 0 and (PS, main) at index 1; the technique record stores 0 for the vertex
stage and 0 for the pixel stage, so the pixel index refers to the unit whose
stage kind is Vertex, and no stage refers to the Pixel unit. -/
theorem C4_pixel_index_refers_to_vertex_unit :
    (pass2 sampleEnv [sameNameTechnique]).1.map (fun c => (c.type_, c.entryPoint_))
      = [(ShaderType.VS, "main"), (ShaderType.PS, "main")] ∧
    (Convert sampleEnv [sameNameTechnique] []).toOption.map (·.outTechniqueHeaders)
      = some [{ name_ := "t", vs_ := 0, gs_ := -1, hs_ := -1, ds_ := -1, ps_ := 0, cs_ := -1,
                rs_ := 0 }] ∧
    (Convert sampleEnv [sameNameTechnique] []).toOption.map
        (fun pkg => pkg.outBytecodeHeaders.map (·.type_))
      = some [ShaderType.VS, ShaderType.PS] := by
  decide

/-- Claim C5.  Whatever binding map a pass is run with, the units handed to the
compiler carry pairwise different (stage kind, entry point) pairs, and a pair
is among them exactly when its entry point is non-empty and some technique
declares it for that stage kind.  Consequently, when two techniques declare the
same non-empty pixel entry point, exactly one unit has that pixel entry point,
a produced package has one bytecode header per unit, and the records of the two
techniques carry the same pixel index. -/
theorem C5_units_are_the_distinct_declared_pairs (env : Env)
    (techniques : List ShaderTechniqueInfo) (bindingMap : BindingMap) :
    (((GenerateAndCompile env (gatherShaders techniques) bindingMap).1.map
        (fun c => (c.type_, c.entryPoint_))).Nodup ∧
     (∀ (k : ShaderType) (e : String),
        (k, e) ∈ (GenerateAndCompile env (gatherShaders techniques) bindingMap).1.map
            (fun c => (c.type_, c.entryPoint_))
          ↔ e ≠ "" ∧ ∃ t ∈ techniques, t.entry k = e)) ∧
    (∀ t1 ∈ techniques, ∀ t2 ∈ techniques, t1.ps_ = t2.ps_ → t1.ps_ ≠ "" →
      (GenerateAndCompile env (gatherShaders techniques) bindingMap).1.countP
          (fun c => decide ((c.type_, c.entryPoint_) = (ShaderType.PS, t1.ps_))) = 1 ∧
      (techniqueHeader env.techniqueNameCap (pass2 env techniques).1 t1).ps_
        = (techniqueHeader env.techniqueNameCap (pass2 env techniques).1 t2).ps_ ∧
      ∀ (samplerStates : List ShaderSamplerStateInfo) (pkg : Package),
        Convert env techniques samplerStates = .ok pkg →
        pkg.outBytecodeHeaders.length = (pass2 env techniques).1.length ∧
        pkg.outTechniqueHeaders
          = techniques.map (techniqueHeader env.techniqueNameCap (pass2 env techniques).1)) := by
  have hnd : ((GenerateAndCompile env (gatherShaders techniques) bindingMap).1.map
      (fun c => (c.type_, c.entryPoint_))).Nodup :=
    nodup_makeCompileInfo_pairs _ _ _ (nodup_gatherShaders techniques)
  have hmem : ∀ (k : ShaderType) (e : String),
      (k, e) ∈ (GenerateAndCompile env (gatherShaders techniques) bindingMap).1.map
          (fun c => (c.type_, c.entryPoint_))
        ↔ e ≠ "" ∧ ∃ t ∈ techniques, t.entry k = e := by
    intro k e
    simp only [GenerateAndCompile, List.mem_map, mem_makeCompileInfo, Prod.mk.injEq]
    constructor
    · rintro ⟨c, ⟨_, _, hc⟩, rfl, rfl⟩
      obtain ⟨hl, h⟩ := mem_gatherShaders.mp hc
      exact ⟨string_length_pos_iff.mp hl, h⟩
    · rintro ⟨hne, h⟩
      exact ⟨⟨env.sourceFile, _, e, k⟩,
        ⟨rfl, rfl, mem_gatherShaders.mpr ⟨string_length_pos_iff.mpr hne, h⟩⟩, rfl, rfl⟩
  refine ⟨⟨hnd, hmem⟩, ?_⟩
  intro t1 ht1 t2 _ heq hne
  refine ⟨countP_eq_one_of_nodup_map _ _ _ hnd ((hmem .PS t1.ps_).mpr ⟨hne, t1, ht1, rfl⟩), ?_, ?_⟩
  · simp only [techniqueHeader, heq]
  · intro samplerStates pkg hok
    exact ⟨(Convert_unit_counts hok).1, Convert_techniqueHeaders hok⟩

/-- Claim C5 at two techniques that share the pixel entry point `p`: three units, one
of them (PS, p), and both records with pixel index 2. -/
theorem C5_units_are_the_distinct_declared_pairs_witness :
    (pass2 sampleEnv [sampleTechnique, sampleTechnique2]).1.map
        (fun c => (c.type_, c.entryPoint_))
      = [(ShaderType.VS, "v"), (ShaderType.VS, "w"), (ShaderType.PS, "p")] ∧
    (GenerateAndCompile sampleEnv (gatherShaders [sampleTechnique, sampleTechnique2]) []).1.countP
        (fun c => decide ((c.type_, c.entryPoint_) = (ShaderType.PS, sampleTechnique.ps_))) = 1 ∧
    (techniqueHeader sampleEnv.techniqueNameCap
        (pass2 sampleEnv [sampleTechnique, sampleTechnique2]).1 sampleTechnique).ps_ = 2 ∧
    (techniqueHeader sampleEnv.techniqueNameCap
        (pass2 sampleEnv [sampleTechnique, sampleTechnique2]).1 sampleTechnique2).ps_ = 2 :=
  have h := (C5_units_are_the_distinct_declared_pairs sampleEnv
    [sampleTechnique, sampleTechnique2] []).2 sampleTechnique (by decide) sampleTechnique2
    (by decide) rfl (by decide)
  ⟨by decide, h.1, by decide, by decide⟩

/-! ## Lookup in a binding table -/

theorem find_append (m e : BindingMap) (x : String) :
    BindingMap.find (m ++ e) x
      = match BindingMap.find m x with
        | some v => some v
        | none => BindingMap.find e x := by
  induction m with
  | nil => simp [BindingMap.find]
  | cons p rest ih =>
    obtain ⟨k, v⟩ := p
    simp only [List.cons_append, BindingMap.find]
    split
    · rfl
    · exact ih

theorem find_eq_none_iff (m : BindingMap) (x : String) :
    BindingMap.find m x = none ↔ x ∉ m.map Prod.fst := by
  induction m with
  | nil => simp [BindingMap.find]
  | cons p rest ih =>
    obtain ⟨k, v⟩ := p
    simp only [BindingMap.find, List.map_cons, List.mem_cons, not_or]
    split
    · rename_i h
      simp [h]
    · rename_i h
      rw [ih]
      constructor
      · intro h1
        exact ⟨fun h2 => h h2.symm, h1⟩
      · exact fun h1 => h1.2

theorem find_some_getElem (m : BindingMap) (x : String) (v : Int) :
    BindingMap.find m x = some v → ∃ j : Nat, m[j]? = some (x, v) := by
  induction m with
  | nil => simp [BindingMap.find]
  | cons p rest ih =>
    obtain ⟨k, w⟩ := p
    simp only [BindingMap.find]
    split
    · rename_i h
      intro hv
      simp only [Option.some.injEq] at hv
      subst h hv
      exact ⟨0, by simp⟩
    · intro hv
      obtain ⟨j, hj⟩ := ih hv
      exact ⟨j + 1, by simpa using hj⟩

theorem getElem_find_of_nodup (m : BindingMap) (hnd : (m.map Prod.fst).Nodup) (x : String)
    (v : Int) (j : Nat) (hj : m[j]? = some (x, v)) : BindingMap.find m x = some v := by
  induction m generalizing j with
  | nil => simp at hj
  | cons p rest ih =>
    obtain ⟨k, w⟩ := p
    rw [List.map_cons, List.nodup_cons] at hnd
    simp only [BindingMap.find]
    cases j with
    | zero =>
      simp only [List.getElem?_cons_zero, Option.some.injEq, Prod.mk.injEq] at hj
      simp [hj.1, hj.2]
    | succ i =>
      simp only [List.getElem?_cons_succ] at hj
      have hmem : x ∈ rest.map Prod.fst := by
        have := List.getElem?_mem hj
        exact List.mem_map.mpr ⟨(x, v), this, rfl⟩
      have hne : k ≠ x := fun h => hnd.1 (h ▸ hmem)
      rw [if_neg hne]
      exact ih hnd.2 i hj

/-! ## The loop of `AddBindings` -/

theorem addBindingStep_find_stable (st : BindingMap × Int) (b : ShaderBinding) (x : String)
    (v : Int) (h : BindingMap.find st.1 x = some v) :
    BindingMap.find (addBindingStep st b).1 x = some v := by
  unfold addBindingStep
  split
  · simp only [BindingMap.insert, find_append, h]
  · exact h

theorem addBindingStep_idx_le (st : BindingMap × Int) (b : ShaderBinding) :
    st.2 ≤ (addBindingStep st b).2 := by
  unfold addBindingStep
  split
  · simp
  · exact le_refl _

theorem addBindingStep_keys (st : BindingMap × Int) (b : ShaderBinding) (x : String) :
    x ∈ (addBindingStep st b).1.map Prod.fst ↔ x ∈ st.1.map Prod.fst ∨ x = b.name_ := by
  unfold addBindingStep
  split
  · simp [BindingMap.insert]
  · rename_i h
    have hb : b.name_ ∈ st.1.map Prod.fst := by
      by_contra hc
      exact h (by rw [(find_eq_none_iff _ _).mpr hc]; rfl)
    constructor
    · exact Or.inl
    · rintro (h1 | h1)
      · exact h1
      · rw [h1]; exact hb

theorem addBindingStep_ok (base : Int) (st : BindingMap × Int) (b : ShaderBinding)
    (h : TableOK base st) : TableOK base (addBindingStep st b) := by
  obtain ⟨hnd, hval, hidx⟩ := h
  unfold addBindingStep
  split
  · rename_i hnone
    have hnot : b.name_ ∉ st.1.map Prod.fst := by
      rw [← find_eq_none_iff]
      exact Option.isNone_iff_eq_none.mp hnone
    refine ⟨?_, ?_, ?_⟩
    · simp only [BindingMap.insert, List.map_append, List.map_cons, List.map_nil]
      rw [List.nodup_append]
      refine ⟨hnd, List.nodup_singleton _, ?_⟩
      intro a ha hb
      simp only [List.mem_singleton] at hb
      subst hb
      exact hnot ha
    · intro j p hj
      simp only [BindingMap.insert] at hj
      by_cases hlt : j < st.1.length
      · rw [List.getElem?_append_left hlt] at hj
        exact hval j p hj
      · rw [List.getElem?_append_right (by omega)] at hj
        have hj0 : j - st.1.length = 0 := by
          by_contra hc
          have : ∃ n, j - st.1.length = n + 1 := ⟨j - st.1.length - 1, by omega⟩
          obtain ⟨n, hn⟩ := this
          rw [hn] at hj
          simp at hj
        rw [hj0] at hj
        simp only [List.getElem?_cons_zero, Option.some.injEq] at hj
        subst hj
        simp only
        rw [hidx]
        have : j = st.1.length := by omega
        rw [this]
    · simp only [BindingMap.insert, List.length_append, List.length_singleton]
      rw [hidx]; push_cast; ring
  · exact ⟨hnd, hval, hidx⟩

theorem AddBindings_find_stable :
    ∀ (bs : List ShaderBinding) (st : BindingMap × Int) (x : String) (v : Int),
      BindingMap.find st.1 x = some v → BindingMap.find (AddBindings bs st.1 st.2).1 x = some v
  | [], _, _, _, h => h
  | b :: rest, st, x, v, h => by
    have := AddBindings_find_stable rest (addBindingStep st b) x v
      (addBindingStep_find_stable st b x v h)
    simpa [AddBindings] using this

theorem AddBindings_idx_le :
    ∀ (bs : List ShaderBinding) (st : BindingMap × Int), st.2 ≤ (AddBindings bs st.1 st.2).2
  | [], _ => le_refl _
  | b :: rest, st => by
    have h1 := addBindingStep_idx_le st b
    have h2 := AddBindings_idx_le rest (addBindingStep st b)
    have h3 : AddBindings (b :: rest) st.1 st.2
        = AddBindings rest (addBindingStep st b).1 (addBindingStep st b).2 := by
      simp [AddBindings]
    rw [h3]
    exact le_trans h1 h2

theorem AddBindings_keys :
    ∀ (bs : List ShaderBinding) (st : BindingMap × Int) (x : String),
      x ∈ (AddBindings bs st.1 st.2).1.map Prod.fst ↔
        x ∈ st.1.map Prod.fst ∨ x ∈ bs.map (·.name_)
  | [], _, _ => by simp [AddBindings]
  | b :: rest, st, x => by
    have h3 : AddBindings (b :: rest) st.1 st.2
        = AddBindings rest (addBindingStep st b).1 (addBindingStep st b).2 := by
      simp [AddBindings]
    rw [h3, AddBindings_keys rest, addBindingStep_keys]
    simp only [List.map_cons, List.mem_cons]
    tauto

theorem AddBindings_ok (base : Int) :
    ∀ (bs : List ShaderBinding) (st : BindingMap × Int), TableOK base st →
      TableOK base (AddBindings bs st.1 st.2)
  | [], _, h => h
  | b :: rest, st, h => by
    have h3 : AddBindings (b :: rest) st.1 st.2
        = AddBindings rest (addBindingStep st b).1 (addBindingStep st b).2 := by
      simp [AddBindings]
    rw [h3]
    exact AddBindings_ok base rest _ (addBindingStep_ok base st b h)

theorem AddBindings_append (bs1 bs2 : List ShaderBinding) (m : BindingMap) (i : Int) :
    AddBindings (bs1 ++ bs2) m i
      = AddBindings bs2 (AddBindings bs1 m i).1 (AddBindings bs1 m i).2 := by
  simp [AddBindings, List.foldl_append]

/-- The loops of a category over all units amount to one call of `AddBindings`
on the reflected bindings of the category in compile order. -/
theorem addAllBindings_eq (sel : ShaderCompileOutput → List ShaderBinding) :
    ∀ (outs : List ShaderCompileOutput) (m : BindingMap) (i : Int),
      addAllBindings sel outs m i = AddBindings (outs.flatMap sel) m i
  | [], _, _ => rfl
  | u :: rest, m, i => by
    rw [List.flatMap_cons, AddBindings_append, ← addAllBindings_eq sel rest]
    simp [addAllBindings]


/-! ## The final binding tables -/

/-- The final table of a category is the result of `AddBindings` on the
reflected bindings of the category, from an empty table and the index carried
over from the categories before it. -/
theorem finalTables_table (outs : List ShaderCompileOutput) (c : Category) :
    (finalTables outs).table c
      = (AddBindings (reflectedBindings c outs) [] (categoryBase outs c)).1 := by
  cases c <;>
    simp only [finalTables, BindingTables.table, categoryBase, reflectedBindings, Category.sel,
      addAllBindings_eq]

theorem tableOK_empty (base : Int) : TableOK base ([], base) := by
  refine ⟨List.nodup_nil, ?_, ?_⟩
  · intro j p h
    simp at h
  · simp

theorem finalTables_ok (outs : List ShaderCompileOutput) (c : Category) :
    TableOK (categoryBase outs c)
      (AddBindings (reflectedBindings c outs) [] (categoryBase outs c)) :=
  AddBindings_ok _ _ ([], categoryBase outs c) (tableOK_empty _)

/-- The index carried into a category equals the number of entries in the
tables of the categories before it. -/
theorem categoryBase_eq (outs : List ShaderCompileOutput) (c : Category) :
    categoryBase outs c = ((finalTables outs).start c : Int) := by
  have hc := (finalTables_ok outs .cbuffer).2.2
  have hs := (finalTables_ok outs .sampler).2.2
  have hr := (finalTables_ok outs .srv).2.2
  rw [← finalTables_table] at hc hs hr
  simp only [reflectedBindings, Category.sel, ← addAllBindings_eq] at hc hs hr
  simp only [categoryBase, BindingTables.table] at hc hs hr
  cases c
  · rfl
  · simp only [categoryBase, BindingTables.start]
    rw [hc]; simp
  · simp only [categoryBase, BindingTables.start]
    rw [hs, hc]; push_cast; ring
  · simp only [categoryBase, BindingTables.start]
    rw [hr, hs, hc]; push_cast; ring

theorem all_getElem?_start (t : BindingTables) (c : Category) (j : Nat)
    (hj : j < (t.table c).length) : t.all[t.start c + j]? = (t.table c)[j]? := by
  cases c <;> simp only [BindingTables.table, BindingTables.start, BindingTables.all] at hj ⊢
  · rw [Nat.zero_add, List.append_assoc, List.append_assoc, List.getElem?_append_left hj]
  · rw [List.append_assoc, List.append_assoc, List.getElem?_append_right (by omega),
      List.getElem?_append_left (by omega)]
    congr 1; omega
  · rw [List.append_assoc, List.append_assoc, List.getElem?_append_right (by omega),
      List.getElem?_append_right (by omega), List.getElem?_append_left (by omega)]
    congr 1; omega
  · rw [List.getElem?_append_right (by simp; omega)]
    congr 1; simp; omega

theorem all_length (t : BindingTables) :
    t.all.length = t.cbuffers.length + t.samplers.length + t.srvs.length + t.uavs.length := by
  simp only [BindingTables.all, List.length_append]

/-- The entry of a category table at a position holds the number of entries in
the tables before the category plus the position. -/
theorem finalTables_value (outs : List ShaderCompileOutput) (c : Category) (j : Nat)
    (p : String × Int) (h : ((finalTables outs).table c)[j]? = some p) :
    p.2 = ((finalTables outs).start c : Int) + j := by
  rw [finalTables_table] at h
  rw [← categoryBase_eq]
  exact (finalTables_ok outs c).2.1 j p h

theorem finalTables_nodup (outs : List ShaderCompileOutput) (c : Category) :
    (((finalTables outs).table c).map Prod.fst).Nodup := by
  rw [finalTables_table]
  exact (finalTables_ok outs c).1

theorem finalTables_keys (outs : List ShaderCompileOutput) (c : Category) (x : String) :
    x ∈ ((finalTables outs).table c).map Prod.fst ↔
      x ∈ (reflectedBindings c outs).map (·.name_) := by
  rw [finalTables_table]
  have := AddBindings_keys (reflectedBindings c outs) ([], categoryBase outs c) x
  simpa using this

/-- The entries of the four tables in serialized order hold the indices
0, 1, 2, ... in that order. -/
theorem finalTables_all_value (outs : List ShaderCompileOutput) (j : Nat) (p : String × Int)
    (h : (finalTables outs).all[j]? = some p) : p.2 = j := by
  have hc := finalTables_value outs .cbuffer
  have hs := finalTables_value outs .sampler
  have hr := finalTables_value outs .srv
  have hu := finalTables_value outs .uav
  simp only [BindingTables.table, BindingTables.start] at hc hs hr hu
  simp only [BindingTables.all, List.append_assoc] at h
  by_cases h1 : j < (finalTables outs).cbuffers.length
  · rw [List.getElem?_append_left h1] at h
    simpa using hc j p h
  · rw [List.getElem?_append_right (by omega)] at h
    by_cases h2 : j - (finalTables outs).cbuffers.length < (finalTables outs).samplers.length
    · rw [List.getElem?_append_left h2] at h
      rw [hs _ p h]; omega
    · rw [List.getElem?_append_right (by omega)] at h
      by_cases h3 : j - (finalTables outs).cbuffers.length - (finalTables outs).samplers.length
          < (finalTables outs).srvs.length
      · rw [List.getElem?_append_left h3] at h
        rw [hr _ p h]; push_cast; omega
      · rw [List.getElem?_append_right (by omega)] at h
        rw [hu _ p h]; push_cast; omega

/-- Claim C7, as stated, fails: with units that reflect the constant buffers
`view` and `material` and the sampler `samp`, the sampler table holds `samp` at
index 2, so the sampler table on its own does not start at 0. -/
theorem C7_sampler_table_not_zero_based :
    Convert reflectEnv [sampleTechnique] [] = .ok reflectPackage ∧
    (finalTables (pass2 reflectEnv [sampleTechnique]).2.1).samplers = [("samp", 2)] ∧
    ¬ ((finalTables (pass2 reflectEnv [sampleTechnique]).2.1).samplers.map Prod.snd
        = (List.range (finalTables (pass2 reflectEnv [sampleTechnique]).2.1).samplers.length).map
            Int.ofNat) := by
  refine ⟨rfl, by decide, by decide⟩

/-- Claim C7, amended.  Each of the four final tables holds pairwise different
names, exactly the names the units reflect for its category, and maps them in
table order onto consecutive indices that start at the number of names in the
tables of the earlier categories (0 for constant buffers, the number of
constant buffers for samplers, and so on); the four tables taken together in
category order map onto 0, 1, ..., n-1. -/
theorem C7_tables_contiguous_from_category_start (outs : List ShaderCompileOutput) :
    (∀ c : Category,
      (((finalTables outs).table c).map Prod.fst).Nodup ∧
      (∀ x, x ∈ ((finalTables outs).table c).map Prod.fst ↔
        x ∈ (reflectedBindings c outs).map (·.name_)) ∧
      ((finalTables outs).table c).map Prod.snd
        = (List.range ((finalTables outs).table c).length).map
            (fun (j : Nat) => ((finalTables outs).start c : Int) + (j : Int))) ∧
    (finalTables outs).all.map Prod.snd
      = (List.range (finalTables outs).all.length).map Int.ofNat := by
  constructor
  · intro c
    refine ⟨finalTables_nodup outs c, finalTables_keys outs c, ?_⟩
    apply List.ext_getElem?
    intro j
    simp only [List.getElem?_map]
    by_cases hj : j < ((finalTables outs).table c).length
    · rw [List.getElem?_range hj]
      obtain ⟨p, hp⟩ : ∃ p, ((finalTables outs).table c)[j]? = some p :=
        ⟨_, List.getElem?_eq_getElem hj⟩
      rw [hp]
      simp [finalTables_value outs c j p hp]
    · rw [List.getElem?_eq_none (by omega), List.getElem?_eq_none (by simp; omega)]
      rfl
  · apply List.ext_getElem?
    intro j
    simp only [List.getElem?_map]
    by_cases hj : j < (finalTables outs).all.length
    · rw [List.getElem?_range hj]
      obtain ⟨p, hp⟩ : ∃ p, (finalTables outs).all[j]? = some p :=
        ⟨_, List.getElem?_eq_getElem hj⟩
      rw [hp]
      simp [finalTables_all_value outs j p hp]
    · rw [List.getElem?_eq_none (by omega), List.getElem?_eq_none (by simp; omega)]
      rfl

/-! ## First-seen order -/

theorem AddBindings_cons (b : ShaderBinding) (rest : List ShaderBinding) (st : BindingMap × Int) :
    AddBindings (b :: rest) st.1 st.2
      = AddBindings rest (addBindingStep st b).1 (addBindingStep st b).2 := by
  simp [AddBindings]

theorem addBindingStep_new (st : BindingMap × Int) (b : ShaderBinding)
    (h : b.name_ ∉ st.1.map Prod.fst) :
    BindingMap.find (addBindingStep st b).1 b.name_ = some st.2 := by
  have hnone := (find_eq_none_iff _ _).mpr h
  unfold addBindingStep
  rw [if_pos (by rw [hnone]; rfl)]
  simp only [BindingMap.insert, find_append, hnone, BindingMap.find, if_true]

/-- A name that is not in the table and occurs among the bindings receives an
index that is at least the running index at the start. -/
theorem AddBindings_new_ge :
    ∀ (bs : List ShaderBinding) (st : BindingMap × Int) (x : String),
      x ∉ st.1.map Prod.fst → x ∈ bs.map (·.name_) →
      ∃ v, BindingMap.find (AddBindings bs st.1 st.2).1 x = some v ∧ st.2 ≤ v
  | [], _, _, _, h => by simp at h
  | b :: rest, st, x, hnot, hmem => by
    rw [AddBindings_cons]
    by_cases hb : b.name_ = x
    · subst hb
      exact ⟨st.2, AddBindings_find_stable rest _ _ _ (addBindingStep_new st b hnot), le_refl _⟩
    · have hnot1 : x ∉ (addBindingStep st b).1.map Prod.fst := by
        rw [addBindingStep_keys]
        rintro (h | h)
        · exact hnot h
        · exact hb h.symm
      have hmem1 : x ∈ rest.map (·.name_) := by
        simp only [List.map_cons, List.mem_cons] at hmem
        rcases hmem with h | h
        · exact absurd h.symm hb
        · exact h
      obtain ⟨v, hv, hle⟩ := AddBindings_new_ge rest (addBindingStep st b) x hnot1 hmem1
      exact ⟨v, hv, le_trans (addBindingStep_idx_le st b) hle⟩

theorem firstIndex_lt_length :
    ∀ (l : List String) (x : String), x ∈ l → firstIndex x l < l.length
  | [], _, h => by simp at h
  | y :: rest, x, h => by
    simp only [firstIndex]
    split
    · simp
    · rename_i hne
      have : x ∈ rest := by
        rcases List.mem_cons.mp h with h1 | h1
        · exact absurd h1.symm hne
        · exact h1
      have := firstIndex_lt_length rest x this
      simp only [List.length_cons]
      omega

/-- When the first occurrence of `a` among the bindings precedes the first
occurrence of `b`, and neither is in the table at the start, `a` receives a
smaller index than `b`. -/
theorem AddBindings_first_seen :
    ∀ (bs : List ShaderBinding) (st : BindingMap × Int) (a b : String),
      a ∉ st.1.map Prod.fst → b ∉ st.1.map Prod.fst →
      a ∈ bs.map (·.name_) → b ∈ bs.map (·.name_) →
      firstIndex a (bs.map (·.name_)) < firstIndex b (bs.map (·.name_)) →
      ∃ ia ib, BindingMap.find (AddBindings bs st.1 st.2).1 a = some ia ∧
        BindingMap.find (AddBindings bs st.1 st.2).1 b = some ib ∧ ia < ib
  | [], _, _, _, _, _, h, _, _ => by simp at h
  | x :: rest, st, a, b, hna, hnb, hma, hmb, hlt => by
    rw [AddBindings_cons]
    simp only [List.map_cons, firstIndex] at hlt
    simp only [List.map_cons, List.mem_cons] at hma hmb
    by_cases hxa : x.name_ = a
    · have hxb : x.name_ ≠ b := by
        intro h
        rw [if_pos hxa, if_pos h] at hlt
        exact absurd hlt (lt_irrefl _)
      have hmb1 : b ∈ rest.map (·.name_) := by
        rcases hmb with h | h
        · exact absurd h.symm hxb
        · exact h
      have hnb1 : b ∉ (addBindingStep st x).1.map Prod.fst := by
        rw [addBindingStep_keys]
        rintro (h | h)
        · exact hnb h
        · exact hxb h.symm
      obtain ⟨vb, hvb, hle⟩ := AddBindings_new_ge rest (addBindingStep st x) b hnb1 hmb1
      have hstep : (addBindingStep st x).2 = st.2 + 1 := by
        have hnone := (find_eq_none_iff _ _).mpr (hxa ▸ hna)
        unfold addBindingStep
        rw [if_pos (by rw [hnone]; rfl)]
      refine ⟨st.2, vb, ?_, hvb, by omega⟩
      subst hxa
      exact AddBindings_find_stable rest _ _ _ (addBindingStep_new st x hna)
    · have hxb : x.name_ ≠ b := by
        intro h
        rw [if_pos h] at hlt
        exact absurd hlt (Nat.not_lt_zero _)
      rw [if_neg hxa, if_neg hxb] at hlt
      have hma1 : a ∈ rest.map (·.name_) := by
        rcases hma with h | h
        · exact absurd h.symm hxa
        · exact h
      have hmb1 : b ∈ rest.map (·.name_) := by
        rcases hmb with h | h
        · exact absurd h.symm hxb
        · exact h
      have hna1 : a ∉ (addBindingStep st x).1.map Prod.fst := by
        rw [addBindingStep_keys]
        rintro (h | h)
        · exact hna h
        · exact hxa h.symm
      have hnb1 : b ∉ (addBindingStep st x).1.map Prod.fst := by
        rw [addBindingStep_keys]
        rintro (h | h)
        · exact hnb h
        · exact hxb h.symm
      exact AddBindings_first_seen rest (addBindingStep st x) a b hna1 hnb1 hma1 hmb1 (by omega)

/-- Claim C9.  For each category, with the reflected bindings of the units
taken in compile order: the final table of the category is what `AddBindings`
builds from them; when the first occurrence of a name `a` precedes the first
occurrence of a name `b`, the index of `a` in the table is smaller than the
index of `b`; and once a name has occurred, the index it has in the table built
so far is the index it has in the final table, whatever follows. -/
theorem C9_indices_in_first_seen_order (outs : List ShaderCompileOutput) (c : Category) :
    (finalTables outs).table c
      = (AddBindings (reflectedBindings c outs) [] (categoryBase outs c)).1 ∧
    (∀ a b : String,
      a ∈ (reflectedBindings c outs).map (·.name_) →
      b ∈ (reflectedBindings c outs).map (·.name_) →
      firstIndex a ((reflectedBindings c outs).map (·.name_))
        < firstIndex b ((reflectedBindings c outs).map (·.name_)) →
      ∃ ia ib, BindingMap.find ((finalTables outs).table c) a = some ia ∧
        BindingMap.find ((finalTables outs).table c) b = some ib ∧ ia < ib) ∧
    (∀ (seen later : List ShaderBinding) (a : String),
      reflectedBindings c outs = seen ++ later → a ∈ seen.map (·.name_) →
      ∃ ia, BindingMap.find (AddBindings seen [] (categoryBase outs c)).1 a = some ia ∧
        BindingMap.find ((finalTables outs).table c) a = some ia) := by
  refine ⟨finalTables_table outs c, ?_, ?_⟩
  · intro a b ha hb hlt
    rw [finalTables_table]
    exact AddBindings_first_seen _ ([], categoryBase outs c) a b (by simp) (by simp) ha hb hlt
  · intro seen later a hsplit ha
    obtain ⟨ia, hia, _⟩ := AddBindings_new_ge seen ([], categoryBase outs c) a (by simp) ha
    refine ⟨ia, hia, ?_⟩
    rw [finalTables_table, hsplit, AddBindings_append]
    exact AddBindings_find_stable later _ a ia hia

/-- Claim C9 at the constant buffers of `reflectOutputs`: `view` is seen before
`material` and keeps its index when it occurs again. -/
theorem C9_indices_in_first_seen_order_witness :
    firstIndex "view" ((reflectedBindings .cbuffer reflectOutputs).map (·.name_)) = 0 ∧
    firstIndex "material" ((reflectedBindings .cbuffer reflectOutputs).map (·.name_)) = 1 ∧
    (∃ ia ib, BindingMap.find ((finalTables reflectOutputs).table .cbuffer) "view" = some ia ∧
      BindingMap.find ((finalTables reflectOutputs).table .cbuffer) "material" = some ib ∧
      ia < ib) ∧
    (∃ ia, BindingMap.find (AddBindings [⟨"view", 0⟩] [] (categoryBase reflectOutputs .cbuffer)).1
        "view" = some ia ∧
      BindingMap.find ((finalTables reflectOutputs).table .cbuffer) "view" = some ia) :=
  ⟨by decide, by decide,
    (C9_indices_in_first_seen_order reflectOutputs .cbuffer).2.1 "view" "material"
      (by decide) (by decide) (by decide),
    (C9_indices_in_first_seen_order reflectOutputs .cbuffer).2.2 [⟨"view", 0⟩]
      [⟨"material", 0⟩, ⟨"view", 1⟩] "view" (by decide) (by decide)⟩

/-! ## The binding mappings -/

theorem view_eq_iff (mp : ShaderBindingMapping) (g s : Int) :
    mp.view = (some g, s) ↔ mp = ⟨g, s⟩ := by
  cases mp
  simp [ShaderBindingMapping.view]

theorem AddBindingMapping_view (m : BindingMap) :
    ∀ (bs : List ShaderBinding) (acc r : List ShaderBindingMapping),
      AddBindingMapping m bs acc = some r →
      r.map ShaderBindingMapping.view
        = acc.map ShaderBindingMapping.view
          ++ bs.map (fun b => (BindingMap.find m b.name_, b.slot_))
  | [], acc, r, h => by
    simp only [AddBindingMapping, Option.some.injEq] at h
    simp [h]
  | b :: rest, acc, r, h => by
    simp only [AddBindingMapping] at h
    split at h
    · cases h
    · rename_i idx hidx
      rw [AddBindingMapping_view m rest _ r h]
      simp [ShaderBindingMapping.view, hidx]

theorem unitBindings_expected (tables : BindingTables) (u : ShaderCompileOutput) :
    (unitBindings u).map (expectedMapping tables)
      = u.cbuffers_.map (fun b => (BindingMap.find tables.cbuffers b.name_, b.slot_))
        ++ u.samplers_.map (fun b => (BindingMap.find tables.samplers b.name_, b.slot_))
        ++ u.srvs_.map (fun b => (BindingMap.find tables.srvs b.name_, b.slot_))
        ++ u.uavs_.map (fun b => (BindingMap.find tables.uavs b.name_, b.slot_)) := by
  simp [unitBindings, expectedMapping, BindingTables.table, Function.comp_def]

theorem bytecodeStep_mappings {tables : BindingTables} {st st1 : BytecodeState}
    {u : ShaderCompileOutput} (h : bytecodeStep tables st u = some st1) :
    st1.outBindingMappings.map ShaderBindingMapping.view
      = st.outBindingMappings.map ShaderBindingMapping.view
        ++ (unitBindings u).map (expectedMapping tables) := by
  unfold bytecodeStep at h
  simp only at h
  split at h
  · cases h
  · rename_i m1 h1
    split at h
    · cases h
    · rename_i m2 h2
      split at h
      · cases h
      · rename_i m3 h3
        split at h
        · cases h
        · rename_i m4 h4
          injection h with h
          subst h
          simp only
          rw [AddBindingMapping_view _ _ _ _ h4, AddBindingMapping_view _ _ _ _ h3,
            AddBindingMapping_view _ _ _ _ h2, AddBindingMapping_view _ _ _ _ h1,
            unitBindings_expected]
          simp only [List.append_assoc]

theorem bytecodeLoop_mappings {tables : BindingTables} :
    ∀ (outs : List ShaderCompileOutput) (st st1 : BytecodeState),
      bytecodeLoop tables outs st = some st1 →
      st1.outBindingMappings.map ShaderBindingMapping.view
        = st.outBindingMappings.map ShaderBindingMapping.view ++ flattenedMappings tables outs
  | [], st, st1, h => by
    simp only [bytecodeLoop, Option.some.injEq] at h
    subst h
    simp [flattenedMappings]
  | u :: rest, st, st1, h => by
    simp only [bytecodeLoop] at h
    split at h
    · cases h
    · rename_i st2 h2
      rw [bytecodeLoop_mappings rest st2 st1 h, bytecodeStep_mappings h2]
      simp [flattenedMappings]

/-- The mappings and the bytecode headers of a produced package. -/
theorem Convert_records {env : Env} {techniques : List ShaderTechniqueInfo}
    {samplerStates : List ShaderSamplerStateInfo} {pkg : Package}
    (h : Convert env techniques samplerStates = .ok pkg) :
    pkg.outBindingMappings.map ShaderBindingMapping.view
      = flattenedMappings (finalTables (pass2 env techniques).2.1) (pass2 env techniques).2.1 ∧
    pkg.outBytecodeHeaders = headersFrom 0 (pass2 env techniques).2.1 ∧
    pkg.outBindingHeaders
      = (finalTables (pass2 env techniques).2.1).all.map
          (fun e => ⟨strcpy_s env.bindingNameCap e.1⟩) ∧
    pkg.outHeader = makeHeader (finalTables (pass2 env techniques).2.1)
      (pass2 env techniques).2.1 techniques samplerStates := by
  obtain ⟨_, _, st, ths, hst, _, _, hpkg⟩ := Convert_ok_inv h
  have hm := bytecodeLoop_mappings _ _ _ hst
  have hh := bytecodeLoop_headers _ _ _ hst
  subst hpkg
  simp only [List.map_nil, List.nil_append] at hm hh
  refine ⟨hm, hh, ?_, rfl⟩
  simp [bindingHeaders, PopulateoutBindingHeaders, BindingTables.all]

theorem flattenedMappings_eq (tables : BindingTables) (outs : List ShaderCompileOutput) :
    flattenedMappings tables outs = (emittedBindings outs).map (expectedMapping tables) := by
  simp [flattenedMappings, emittedBindings, List.map_flatMap]

theorem headersFrom_numBindings :
    ∀ (outs : List ShaderCompileOutput) (off : Int),
      (headersFrom off outs).map ShaderBytecodeHeader.numBindings
        = outs.map (fun u => ((unitBindings u).length : Int))
  | [], _ => rfl
  | u :: rest, off => by
    simp only [headersFrom, List.map_cons, headersFrom_numBindings rest]
    congr 1
    simp only [ShaderBytecodeHeader.numBindings, bytecodeHeader, unitBindings,
      List.length_append, List.length_map]
    push_cast
    ring

theorem headersFrom_getElem? :
    ∀ (outs : List ShaderCompileOutput) (off : Int) (i : Nat) (hdr : ShaderBytecodeHeader),
      (headersFrom off outs)[i]? = some hdr →
      ∃ u, outs[i]? = some u ∧ hdr.numCBuffers_ = u.cbuffers_.length ∧
        hdr.numSamplers_ = u.samplers_.length ∧ hdr.numSRVs_ = u.srvs_.length ∧
        hdr.numUAVs_ = u.uavs_.length
  | [], _, _, _, h => by simp [headersFrom] at h
  | u :: rest, off, i, hdr, h => by
    cases i with
    | zero =>
      simp only [headersFrom, List.getElem?_cons_zero, Option.some.injEq] at h
      subst h
      exact ⟨u, by simp, rfl, rfl, rfl, rfl⟩
    | succ j =>
      simp only [headersFrom, List.getElem?_cons_succ] at h
      obtain ⟨u1, hu1, hrest⟩ := headersFrom_getElem? rest _ j hdr h
      exact ⟨u1, by simpa using hu1, hrest⟩

theorem sum_map_cast {α : Type} (f : α → Nat) :
    ∀ (l : List α), (l.map (fun a => ((f a : Nat) : Int))).sum = ((l.map f).sum : Nat)
  | [] => rfl
  | a :: rest => by
    simp only [List.map_cons, List.sum_cons, sum_map_cast f rest]
    push_cast
    rfl

theorem flatMap_drop_take {α β : Type} (f : α → List β) :
    ∀ (l : List α) (i : Nat) (u : α), l[i]? = some u →
      ((l.flatMap f).drop ((l.take i).map (fun a => (f a).length)).sum).take (f u).length = f u
  | [], i, u, h => by simp at h
  | a :: rest, i, u, h => by
    cases i with
    | zero =>
      simp only [List.getElem?_cons_zero, Option.some.injEq] at h
      subst h
      simp
    | succ j =>
      simp only [List.getElem?_cons_succ] at h
      have ih := flatMap_drop_take f rest j u h
      simp only [List.flatMap_cons, List.take_succ_cons, List.map_cons, List.sum_cons]
      rw [← List.drop_drop, List.drop_left]
      exact ih

/-- The start of the block of a unit, counted from the headers of the units
before it, is the number of bindings these units emit. -/
theorem headers_block_start (outs : List ShaderCompileOutput) (off : Int) (i : Nat) :
    (((headersFrom off outs).take i).map ShaderBytecodeHeader.numBindings).sum.toNat
      = ((outs.take i).map (fun u => (unitBindings u).length)).sum := by
  have h1 : ((headersFrom off outs).take i).map ShaderBytecodeHeader.numBindings
      = (outs.take i).map (fun u => ((unitBindings u).length : Int)) := by
    rw [List.map_take, headersFrom_numBindings, ← List.map_take]
  rw [h1, sum_map_cast]
  exact Int.toNat_ofNat _

theorem strcpy_s_of_fits (cap : Nat) (s : String) (h : s.length < cap) : strcpy_s cap s = s := by
  cases s with
  | mk d =>
    simp only [String.length] at h
    simp only [strcpy_s]
    rw [List.take_of_length_le (by omega)]

/-- The views of the mappings in the block of a unit. -/
theorem Convert_unit_block {env : Env} {techniques : List ShaderTechniqueInfo}
    {samplerStates : List ShaderSamplerStateInfo} {pkg : Package}
    (hok : Convert env techniques samplerStates = .ok pkg) (i : Nat) (u : ShaderCompileOutput)
    (hu : (pass2 env techniques).2.1[i]? = some u) :
    ((pkg.outBindingMappings.drop
        (((pkg.outBytecodeHeaders.take i).map ShaderBytecodeHeader.numBindings).sum).toNat).take
      (unitBindings u).length).map ShaderBindingMapping.view
      = (unitBindings u).map (expectedMapping (finalTables (pass2 env techniques).2.1)) := by
  obtain ⟨hm, hh, _, _⟩ := Convert_records hok
  rw [List.map_take, List.map_drop, hm, hh, headers_block_start]
  have := flatMap_drop_take
    (fun u => (unitBindings u).map (expectedMapping (finalTables (pass2 env techniques).2.1)))
    (pass2 env techniques).2.1 i u hu
  simp only [List.length_map] at this
  exact this

/-- The mapping emitted for the binding at a position of the block of a unit. -/
theorem Convert_mapping_at {env : Env} {techniques : List ShaderTechniqueInfo}
    {samplerStates : List ShaderSamplerStateInfo} {pkg : Package}
    (hok : Convert env techniques samplerStates = .ok pkg) (i : Nat) (u : ShaderCompileOutput)
    (hu : (pass2 env techniques).2.1[i]? = some u) (q : Nat) (c : Category) (b : ShaderBinding)
    (hq : (unitBindings u)[q]? = some (c, b)) :
    ∃ g, BindingMap.find ((finalTables (pass2 env techniques).2.1).table c) b.name_ = some g ∧
      pkg.outBindingMappings[(((pkg.outBytecodeHeaders.take i).map
        ShaderBytecodeHeader.numBindings).sum).toNat + q]? = some ⟨g, b.slot_⟩ := by
  have hblock := Convert_unit_block hok i u hu
  have hqlt : q < (unitBindings u).length := (List.getElem?_eq_some.mp hq).1
  have h1 := congrArg (fun l => l[q]?) hblock
  simp only [List.getElem?_map, List.getElem?_take_of_lt hqlt, List.getElem?_drop, hq,
    Option.map_some'] at h1
  cases hmp : pkg.outBindingMappings[(((pkg.outBytecodeHeaders.take i).map
      ShaderBytecodeHeader.numBindings).sum).toNat + q]? with
  | none => rw [hmp] at h1; simp at h1
  | some mp =>
    rw [hmp] at h1
    simp only [Option.map_some', Option.some.injEq, expectedMapping] at h1
    have h2 := congrArg Prod.fst h1
    have h3 := congrArg Prod.snd h1
    simp only [ShaderBindingMapping.view] at h2 h3
    refine ⟨mp.binding_, h2.symm, ?_⟩
    cases mp
    simp only at h3
    simp [h3]

/-! ## Claims on the binding records -/

/-- Claim C10.  In a produced package the list of binding mappings, read as
(table index, local slot) pairs, is the concatenation over the units in compile
order of the unit's constant-buffer, sampler, SRV and UAV bindings in reflected
order, each as (index found for the name in the table of its category, local
slot of the unit).  The four per-unit counts of the bytecode header of a unit are
the lengths of its four reflected lists; the mappings of unit `i` are the
consecutive mappings that start at the sum of the four counts of the headers
before it, and there are as many as the sum of its own four counts. -/
theorem C10_mappings_flattened_by_unit (env : Env) (techniques : List ShaderTechniqueInfo)
    (samplerStates : List ShaderSamplerStateInfo) (pkg : Package)
    (hok : Convert env techniques samplerStates = .ok pkg) :
    pkg.outBindingMappings.map ShaderBindingMapping.view
      = flattenedMappings (finalTables (pass2 env techniques).2.1) (pass2 env techniques).2.1 ∧
    pkg.outBytecodeHeaders.length = (pass2 env techniques).2.1.length ∧
    ∀ (i : Nat) (u : ShaderCompileOutput) (hdr : ShaderBytecodeHeader),
      (pass2 env techniques).2.1[i]? = some u → pkg.outBytecodeHeaders[i]? = some hdr →
      (hdr.numCBuffers_ = u.cbuffers_.length ∧ hdr.numSamplers_ = u.samplers_.length ∧
        hdr.numSRVs_ = u.srvs_.length ∧ hdr.numUAVs_ = u.uavs_.length) ∧
      ((pkg.outBindingMappings.drop
          (((pkg.outBytecodeHeaders.take i).map ShaderBytecodeHeader.numBindings).sum).toNat).take
        hdr.numBindings.toNat).map ShaderBindingMapping.view
        = (unitBindings u).map (expectedMapping (finalTables (pass2 env techniques).2.1)) := by
  obtain ⟨hm, hh, _, _⟩ := Convert_records hok
  refine ⟨hm, by rw [hh, headersFrom_length], ?_⟩
  intro i u hdr hu hhdr
  have hblock := Convert_unit_block hok i u hu
  rw [hh] at hhdr
  obtain ⟨u1, hu1, hc, hs, hr, hv⟩ := headersFrom_getElem? _ _ _ _ hhdr
  rw [hu] at hu1
  simp only [Option.some.injEq] at hu1
  subst hu1
  have hn : hdr.numBindings.toNat = (unitBindings u).length := by
    simp only [ShaderBytecodeHeader.numBindings, hc, hs, hr, hv, unitBindings,
      List.length_append, List.length_map]
    omega
  rw [hn]
  exact ⟨⟨hc, hs, hr, hv⟩, hblock⟩

/-- Claim C10 at the conversion of `sampleTechnique` under `reflectEnv`. -/
theorem C10_mappings_flattened_by_unit_witness :
    Convert reflectEnv [sampleTechnique] [] = .ok reflectPackage ∧
    (reflectPackage.outBindingMappings.map ShaderBindingMapping.view
      = flattenedMappings (finalTables (pass2 reflectEnv [sampleTechnique]).2.1)
          (pass2 reflectEnv [sampleTechnique]).2.1 ∧
    reflectPackage.outBytecodeHeaders.length = (pass2 reflectEnv [sampleTechnique]).2.1.length ∧
    ∀ (i : Nat) (u : ShaderCompileOutput) (hdr : ShaderBytecodeHeader),
      (pass2 reflectEnv [sampleTechnique]).2.1[i]? = some u →
      reflectPackage.outBytecodeHeaders[i]? = some hdr →
      (hdr.numCBuffers_ = u.cbuffers_.length ∧ hdr.numSamplers_ = u.samplers_.length ∧
        hdr.numSRVs_ = u.srvs_.length ∧ hdr.numUAVs_ = u.uavs_.length) ∧
      ((reflectPackage.outBindingMappings.drop
          (((reflectPackage.outBytecodeHeaders.take i).map
            ShaderBytecodeHeader.numBindings).sum).toNat).take
        hdr.numBindings.toNat).map ShaderBindingMapping.view
        = (unitBindings u).map
            (expectedMapping (finalTables (pass2 reflectEnv [sampleTechnique]).2.1))) :=
  ⟨rfl, C10_mappings_flattened_by_unit reflectEnv [sampleTechnique] [] reflectPackage rfl⟩

/-- Claim C8, as stated, fails: with name fields of 8 characters and a unit that
reflects the constant buffer `constants_block`, the one mapping of the package
was emitted for that binding and has index 0, and record 0 carries `constan`,
not the name of the binding. -/
theorem C8_record_carries_cut_name :
    (emittedBindings (pass2 longNameEnv [longNameTechnique]).2.1)[0]?
      = some (Category.cbuffer, ⟨"constants_block", 0⟩) ∧
    (Convert longNameEnv [longNameTechnique] [longNameSamplerState]).toOption.map
        (·.outBindingMappings) = some [⟨0, 0⟩] ∧
    (Convert longNameEnv [longNameTechnique] [longNameSamplerState]).toOption.map
        (fun pkg => pkg.outBindingHeaders[0]?) = some (some ⟨"constan"⟩) ∧
    (⟨"constan"⟩ : ShaderBindingHeader) ≠ ⟨"constants_block"⟩ := by
  decide

/-- Claim C8, amended.  In a produced package, every binding mapping has an
index `k` with `0 ≤ k` and `k` below the sum of the four category counts of the
header, which is the number of binding-name records; the mapping was emitted
for the binding at the same position of the emission order, whose local slot it
carries; the `k`-th entry of the four tables in serialized order (constant
buffers, samplers, SRVs, UAVs, each in insertion order) is the name of that
binding with index `k`; and the `k`-th binding-name record is the record written
for that name: it holds the name as copied into the fixed-capacity name field,
which is the name itself whenever the name is shorter than the capacity. -/
theorem C8_mapping_index_points_to_its_name (env : Env)
    (techniques : List ShaderTechniqueInfo) (samplerStates : List ShaderSamplerStateInfo)
    (pkg : Package) (hok : Convert env techniques samplerStates = .ok pkg)
    (p : Nat) (mp : ShaderBindingMapping) (hmp : pkg.outBindingMappings[p]? = some mp) :
    0 ≤ mp.binding_ ∧
    mp.binding_ < pkg.outHeader.numCBuffers_ + pkg.outHeader.numSamplers_
      + pkg.outHeader.numSRVs_ + pkg.outHeader.numUAVs_ ∧
    (pkg.outBindingHeaders.length : Int) = pkg.outHeader.numCBuffers_
      + pkg.outHeader.numSamplers_ + pkg.outHeader.numSRVs_ + pkg.outHeader.numUAVs_ ∧
    ∃ (c : Category) (b : ShaderBinding),
      (emittedBindings (pass2 env techniques).2.1)[p]? = some (c, b) ∧
      mp.dstSlot_ = b.slot_ ∧
      (finalTables (pass2 env techniques).2.1).all[mp.binding_.toNat]?
        = some (b.name_, mp.binding_) ∧
      pkg.outBindingHeaders[mp.binding_.toNat]?
        = some ⟨strcpy_s env.bindingNameCap b.name_⟩ ∧
      (b.name_.length < env.bindingNameCap →
        pkg.outBindingHeaders[mp.binding_.toNat]? = some ⟨b.name_⟩) := by
  obtain ⟨hm, _, hb, hhead⟩ := Convert_records hok
  have h1 := congrArg (fun l => l[p]?) hm
  simp only [List.getElem?_map, hmp, Option.map_some', flattenedMappings_eq] at h1
  cases hcb : (emittedBindings (pass2 env techniques).2.1)[p]? with
  | none => rw [hcb] at h1; simp at h1
  | some cb =>
    obtain ⟨c, b⟩ := cb
    rw [hcb] at h1
    simp only [Option.map_some', Option.some.injEq, expectedMapping,
      ShaderBindingMapping.view, Prod.mk.injEq] at h1
    obtain ⟨hfind, hslot⟩ := h1
    obtain ⟨j, hj⟩ := find_some_getElem _ _ _ hfind.symm
    have hval := finalTables_value _ c j _ hj
    simp only at hval
    have hjlt : j < ((finalTables (pass2 env techniques).2.1).table c).length :=
      (List.getElem?_eq_some.mp hj).1
    have hall := all_getElem?_start (finalTables (pass2 env techniques).2.1) c j hjlt
    rw [hj] at hall
    have hk : mp.binding_.toNat = (finalTables (pass2 env techniques).2.1).start c + j := by
      rw [hval]; omega
    have hklt : (finalTables (pass2 env techniques).2.1).start c + j
        < (finalTables (pass2 env techniques).2.1).all.length :=
      (List.getElem?_eq_some.mp hall).1
    have hlen := all_length (finalTables (pass2 env techniques).2.1)
    have hrec : pkg.outBindingHeaders[mp.binding_.toNat]?
        = some ⟨strcpy_s env.bindingNameCap b.name_⟩ := by
      rw [hb, List.getElem?_map, hk, hall]
      rfl
    refine ⟨by omega, ?_, ?_, c, b, rfl, hslot, by rw [hk]; exact hall, hrec, ?_⟩
    · rw [hhead]
      simp only [makeHeader]
      omega
    · rw [hhead, hb]
      simp only [makeHeader, List.length_map, hlen]
      push_cast
      rfl
    · intro hfit
      rw [hrec, strcpy_s_of_fits _ _ hfit]

/-- Claim C8, amended, at the sixth mapping of the conversion under `reflectEnv`: the sampler
`samp` of the second unit, with index 2. -/
theorem C8_mapping_index_points_to_its_name_witness :
    Convert reflectEnv [sampleTechnique] [] = .ok reflectPackage ∧
    reflectPackage.outBindingMappings[5]? = some ⟨2, 0⟩ ∧
    ((0 : Int) ≤ 2 ∧
    (2 : Int) < reflectPackage.outHeader.numCBuffers_ + reflectPackage.outHeader.numSamplers_
      + reflectPackage.outHeader.numSRVs_ + reflectPackage.outHeader.numUAVs_ ∧
    (reflectPackage.outBindingHeaders.length : Int) = reflectPackage.outHeader.numCBuffers_
      + reflectPackage.outHeader.numSamplers_ + reflectPackage.outHeader.numSRVs_
      + reflectPackage.outHeader.numUAVs_ ∧
    ∃ (c : Category) (b : ShaderBinding),
      (emittedBindings (pass2 reflectEnv [sampleTechnique]).2.1)[5]? = some (c, b) ∧
      (0 : Int) = b.slot_ ∧
      (finalTables (pass2 reflectEnv [sampleTechnique]).2.1).all[(2 : Int).toNat]?
        = some (b.name_, 2) ∧
      reflectPackage.outBindingHeaders[(2 : Int).toNat]?
        = some ⟨strcpy_s reflectEnv.bindingNameCap b.name_⟩ ∧
      (b.name_.length < reflectEnv.bindingNameCap →
        reflectPackage.outBindingHeaders[(2 : Int).toNat]? = some ⟨b.name_⟩)) :=
  ⟨rfl, rfl, C8_mapping_index_points_to_its_name reflectEnv [sampleTechnique] [] reflectPackage
    rfl 5 ⟨2, 0⟩ rfl⟩

theorem unitBindings_cbuffer_getElem? (u : ShaderCompileOutput) (q : Nat) (b : ShaderBinding)
    (h : u.cbuffers_[q]? = some b) : (unitBindings u)[q]? = some (Category.cbuffer, b) := by
  have hq : q < u.cbuffers_.length := (List.getElem?_eq_some.mp h).1
  simp only [unitBindings, List.append_assoc]
  rw [List.getElem?_append_left (by simpa using hq), List.getElem?_map, h]
  rfl

/-- Claim C6.  In a produced package, when two different units of the second
pass both reflect a constant buffer of the same name: the constant-buffer table
has exactly one entry for the name, the constant-buffer records of the package
are the records of the entries of that table (one record per entry, in order),
the entry of the name sits at the position given by its index, and the mappings
emitted for the name in the blocks of the two units carry that same index, each
with the local slot reflected by its own unit. -/
theorem C6_shared_cbuffer_one_record_same_index (env : Env)
    (techniques : List ShaderTechniqueInfo) (samplerStates : List ShaderSamplerStateInfo)
    (pkg : Package) (hok : Convert env techniques samplerStates = .ok pkg)
    (n : String) (i j : Nat) (u1 u2 : ShaderCompileOutput) (q1 q2 : Nat)
    (b1 b2 : ShaderBinding) (_hij : i ≠ j)
    (hu1 : (pass2 env techniques).2.1[i]? = some u1)
    (hu2 : (pass2 env techniques).2.1[j]? = some u2)
    (hb1 : u1.cbuffers_[q1]? = some b1) (hb2 : u2.cbuffers_[q2]? = some b2)
    (hn1 : b1.name_ = n) (hn2 : b2.name_ = n) :
    (finalTables (pass2 env techniques).2.1).cbuffers.countP (fun e => decide (e.1 = n)) = 1 ∧
    pkg.outBindingHeaders.take pkg.outHeader.numCBuffers_.toNat
      = (finalTables (pass2 env techniques).2.1).cbuffers.map
          (fun e => ⟨strcpy_s env.bindingNameCap e.1⟩) ∧
    ∃ g : Int,
      (finalTables (pass2 env techniques).2.1).cbuffers[g.toNat]? = some (n, g) ∧
      pkg.outBindingMappings[(((pkg.outBytecodeHeaders.take i).map
        ShaderBytecodeHeader.numBindings).sum).toNat + q1]? = some ⟨g, b1.slot_⟩ ∧
      pkg.outBindingMappings[(((pkg.outBytecodeHeaders.take j).map
        ShaderBytecodeHeader.numBindings).sum).toNat + q2]? = some ⟨g, b2.slot_⟩ := by
  obtain ⟨_, _, hb, hhead⟩ := Convert_records hok
  have hnd := finalTables_nodup (pass2 env techniques).2.1 .cbuffer
  have hmem : n ∈ ((finalTables (pass2 env techniques).2.1).table .cbuffer).map Prod.fst := by
    rw [finalTables_keys]
    simp only [reflectedBindings, Category.sel, List.mem_map, List.mem_flatMap]
    exact ⟨b1, ⟨u1, List.getElem?_mem hu1, List.getElem?_mem hb1⟩, hn1⟩
  obtain ⟨g1, hg1, hm1⟩ := Convert_mapping_at hok i u1 hu1 q1 .cbuffer b1
    (unitBindings_cbuffer_getElem? u1 q1 b1 hb1)
  obtain ⟨g2, hg2, hm2⟩ := Convert_mapping_at hok j u2 hu2 q2 .cbuffer b2
    (unitBindings_cbuffer_getElem? u2 q2 b2 hb2)
  rw [hn1] at hg1
  rw [hn2, hg1] at hg2
  simp only [Option.some.injEq] at hg2
  subst hg2
  obtain ⟨k, hk⟩ := find_some_getElem _ _ _ hg1
  have hval := finalTables_value _ .cbuffer k _ hk
  simp only [BindingTables.start, Nat.cast_zero, zero_add] at hval
  simp only [BindingTables.table] at hnd hmem hk
  refine ⟨countP_eq_one_of_nodup_map Prod.fst n _ hnd hmem, ?_, g1, ?_, hm1, hm2⟩
  · rw [hb, hhead]
    simp only [makeHeader, Int.toNat_ofNat, BindingTables.all, List.append_assoc,
      List.map_append]
    exact List.take_left' (by simp)
  · subst hval
    simpa using hk

/-- Claim C6 at the constant buffer `view`, reflected by both units under
`reflectEnv`, at slot 0 in the first and slot 1 in the second. -/
theorem C6_shared_cbuffer_one_record_same_index_witness :
    Convert reflectEnv [sampleTechnique] [] = .ok reflectPackage ∧
    (pass2 reflectEnv [sampleTechnique]).2.1 = reflectOutputs ∧
    ((finalTables (pass2 reflectEnv [sampleTechnique]).2.1).cbuffers.countP
        (fun e => decide (e.1 = "view")) = 1 ∧
    reflectPackage.outBindingHeaders.take reflectPackage.outHeader.numCBuffers_.toNat
      = (finalTables (pass2 reflectEnv [sampleTechnique]).2.1).cbuffers.map
          (fun e => ⟨strcpy_s reflectEnv.bindingNameCap e.1⟩) ∧
    ∃ g : Int,
      (finalTables (pass2 reflectEnv [sampleTechnique]).2.1).cbuffers[g.toNat]?
        = some ("view", g) ∧
      reflectPackage.outBindingMappings[(((reflectPackage.outBytecodeHeaders.take 0).map
        ShaderBytecodeHeader.numBindings).sum).toNat + 0]? = some ⟨g, 0⟩ ∧
      reflectPackage.outBindingMappings[(((reflectPackage.outBytecodeHeaders.take 1).map
        ShaderBytecodeHeader.numBindings).sum).toNat + 1]? = some ⟨g, 1⟩) :=
  ⟨rfl, rfl, C6_shared_cbuffer_one_record_same_index reflectEnv [sampleTechnique] []
    reflectPackage rfl "view" 0 1 reflectOutputs[0] reflectOutputs[1] 0 1 ⟨"view", 0⟩ ⟨"view", 1⟩
    (by decide) rfl rfl rfl rfl rfl rfl⟩

/-! ## The record loops run to their end -/

theorem AddBindingMapping_some (m : BindingMap) :
    ∀ (bs : List ShaderBinding) (acc : List ShaderBindingMapping),
      (∀ b ∈ bs, ∃ g, BindingMap.find m b.name_ = some g) →
      ∃ r, AddBindingMapping m bs acc = some r
  | [], acc, _ => ⟨acc, rfl⟩
  | b :: rest, acc, h => by
    obtain ⟨g, hg⟩ := h b (List.mem_cons_self _ _)
    simp only [AddBindingMapping, hg]
    exact AddBindingMapping_some m rest _ (fun b1 hb1 => h b1 (List.mem_cons_of_mem _ hb1))

theorem bytecodeStep_some (tables : BindingTables) (st : BytecodeState) (u : ShaderCompileOutput)
    (h : ∀ (c : Category), ∀ b ∈ c.sel u, ∃ g, BindingMap.find (tables.table c) b.name_ = some g) :
    ∃ st1, bytecodeStep tables st u = some st1 := by
  obtain ⟨m1, h1⟩ := AddBindingMapping_some tables.cbuffers u.cbuffers_ st.outBindingMappings
    (h .cbuffer)
  obtain ⟨m2, h2⟩ := AddBindingMapping_some tables.samplers u.samplers_ m1 (h .sampler)
  obtain ⟨m3, h3⟩ := AddBindingMapping_some tables.srvs u.srvs_ m2 (h .srv)
  obtain ⟨m4, h4⟩ := AddBindingMapping_some tables.uavs u.uavs_ m3 (h .uav)
  simp only [bytecodeStep, h1, h2, h3, h4]
  exact ⟨_, rfl⟩

theorem bytecodeLoop_some (tables : BindingTables) :
    ∀ (outs : List ShaderCompileOutput) (st : BytecodeState),
      (∀ u ∈ outs, ∀ (c : Category), ∀ b ∈ c.sel u,
        ∃ g, BindingMap.find (tables.table c) b.name_ = some g) →
      ∃ st1, bytecodeLoop tables outs st = some st1
  | [], st, _ => ⟨st, rfl⟩
  | u :: rest, st, h => by
    obtain ⟨st2, h2⟩ := bytecodeStep_some tables st u (h u (List.mem_cons_self _ _))
    simp only [bytecodeLoop, h2]
    exact bytecodeLoop_some tables rest st2 (fun u1 hu1 => h u1 (List.mem_cons_of_mem _ hu1))

/-- Every name a unit reflects for a category is in the final table of the
category. -/
theorem finalTables_find_some (outs : List ShaderCompileOutput) (u : ShaderCompileOutput)
    (hu : u ∈ outs) (c : Category) (b : ShaderBinding) (hb : b ∈ c.sel u) :
    ∃ g, BindingMap.find ((finalTables outs).table c) b.name_ = some g := by
  have hmem : b.name_ ∈ ((finalTables outs).table c).map Prod.fst := by
    rw [finalTables_keys]
    simp only [reflectedBindings, List.mem_map, List.mem_flatMap]
    exact ⟨b, ⟨u, hu, hb⟩, rfl⟩
  cases hf : BindingMap.find ((finalTables outs).table c) b.name_ with
  | none => exact absurd hmem ((find_eq_none_iff _ _).mp hf)
  | some g => exact ⟨g, rfl⟩

theorem techniqueLoop_some (d : Bool) (cap : Nat) (cis : List CompileInfo) :
    ∀ (techniques : List ShaderTechniqueInfo) (acc : List ShaderTechniqueHeader),
      (d = true → ∀ t ∈ techniques,
        (techniqueHeader cap cis t).vs_ ≠ -1 ∨ (techniqueHeader cap cis t).cs_ ≠ -1) →
      ∃ ths, techniqueLoop d cap cis techniques acc = some ths
  | [], acc, _ => ⟨acc, rfl⟩
  | t :: rest, acc, h => by
    simp only [techniqueLoop]
    split
    · rename_i hc
      simp only [Bool.and_eq_true, Bool.not_eq_true', Bool.or_eq_false_iff,
        decide_eq_false_iff_not, not_not] at hc
      rcases h hc.1 t (List.mem_cons_self _ _) with h1 | h1
      · exact absurd hc.2.1 h1
      · exact absurd hc.2.2 h1
    · exact techniqueLoop_some d cap cis rest _
        (fun hd t1 ht1 => h hd t1 (List.mem_cons_of_mem _ ht1))

theorem techniqueLoop_checked (cap : Nat) (cis : List CompileInfo) :
    ∀ (techniques : List ShaderTechniqueInfo) (acc ths : List ShaderTechniqueHeader),
      techniqueLoop true cap cis techniques acc = some ths →
      ∀ t ∈ techniques,
        (techniqueHeader cap cis t).vs_ ≠ -1 ∨ (techniqueHeader cap cis t).cs_ ≠ -1
  | [], _, _, _, t, ht => by simp at ht
  | t0 :: rest, acc, ths, h, t, ht => by
    simp only [techniqueLoop] at h
    split at h
    · cases h
    · rename_i hc
      rcases List.mem_cons.mp ht with h1 | h1
      · subst h1
        simp only [Bool.true_and, Bool.not_eq_true', Bool.or_eq_false_iff,
          decide_eq_false_iff_not, not_and, not_not] at hc
        by_cases hv : (techniqueHeader cap cis t).vs_ = -1
        · exact Or.inr (by
            intro hcs
            exact absurd hcs (by
              have := hc hv
              exact this))
        · exact Or.inl hv
      · exact techniqueLoop_checked cap cis rest _ ths h t h1

/-- A conversion produces a package as soon as both passes end without a
diagnostic, the technique assertion (when compiled in) holds for every
technique, and the destination can be created. -/
theorem Convert_succeeds (env : Env) (techniques : List ShaderTechniqueInfo)
    (samplerStates : List ShaderSamplerStateInfo)
    (h1 : (pass1 env techniques).2.2 = none) (h2 : (pass2 env techniques).2.2 = none)
    (ht : env.dbgAsserts = true → ∀ t ∈ techniques,
      (techniqueHeader env.techniqueNameCap (pass2 env techniques).1 t).vs_ ≠ -1 ∨
      (techniqueHeader env.techniqueNameCap (pass2 env techniques).1 t).cs_ ≠ -1)
    (hc : env.canCreateDest = true) :
    ∃ pkg, Convert env techniques samplerStates = .ok pkg := by
  obtain ⟨st, hst⟩ := bytecodeLoop_some (finalTables (pass2 env techniques).2.1)
    (pass2 env techniques).2.1 ⟨0, [], []⟩
    (fun u hu c b hb => finalTables_find_some _ u hu c b hb)
  obtain ⟨ths, hths⟩ := techniqueLoop_some env.dbgAsserts env.techniqueNameCap
    (pass2 env techniques).1 techniques [] ht
  simp only [Convert, h1, h2, hst, hths, hc, if_true]
  exact ⟨_, rfl⟩

/-- Claim C19.  For every list of compiled units, every binding name a unit
reflects for a category is found in the final table of that category built from
the same units, so the bytecode-header loop reaches its end with a mapping for
every binding, whatever state it starts from; and with the technique assertion
compiled out a conversion never ends at an assertion. -/
theorem C19_binding_assertion_never_fails (outs : List ShaderCompileOutput) :
    (∀ u ∈ outs, ∀ (c : Category), ∀ b ∈ c.sel u,
      ∃ g, BindingMap.find ((finalTables outs).table c) b.name_ = some g) ∧
    (∀ st, ∃ st1, bytecodeLoop (finalTables outs) outs st = some st1) ∧
    (∀ (env : Env) (techniques : List ShaderTechniqueInfo)
      (samplerStates : List ShaderSamplerStateInfo), env.dbgAsserts = false →
      Convert env techniques samplerStates ≠ .error .assertFailed) := by
  refine ⟨fun u hu c b hb => finalTables_find_some outs u hu c b hb,
    fun st => bytecodeLoop_some _ outs st
      (fun u hu c b hb => finalTables_find_some outs u hu c b hb), ?_⟩
  intro env techniques samplerStates hd h
  unfold Convert at h
  split at h
  · cases h
  · split at h
    · cases h
    · simp only at h
      split at h
      · rename_i hnone
        obtain ⟨st, hst⟩ := bytecodeLoop_some (finalTables (pass2 env techniques).2.1)
          (pass2 env techniques).2.1 ⟨0, [], []⟩
          (fun u hu c b hb => finalTables_find_some _ u hu c b hb)
        rw [hst] at hnone
        cases hnone
      · split at h
        · rename_i hnone
          obtain ⟨ths, hths⟩ := techniqueLoop_some env.dbgAsserts env.techniqueNameCap
            (pass2 env techniques).1 techniques []
            (fun hd1 => by rw [hd] at hd1; cases hd1)
          rw [hths] at hnone
          cases hnone
        · split at h
          · cases h
          · cases h

/-- Claim C15.  In a produced package the four category counts of the header
add up to the number of binding-name records, the unit count is the number of
bytecode headers, the technique count is the number of technique records and
the sampler-state count is the number of sampler-state records. -/
theorem C15_header_counts_match_records (env : Env) (techniques : List ShaderTechniqueInfo)
    (samplerStates : List ShaderSamplerStateInfo) (pkg : Package)
    (hok : Convert env techniques samplerStates = .ok pkg) :
    pkg.outHeader.numCBuffers_ + pkg.outHeader.numSamplers_ + pkg.outHeader.numSRVs_
      + pkg.outHeader.numUAVs_ = (pkg.outBindingHeaders.length : Int) ∧
    pkg.outHeader.numShaders_ = (pkg.outBytecodeHeaders.length : Int) ∧
    pkg.outHeader.numTechniques_ = (pkg.outTechniqueHeaders.length : Int) ∧
    pkg.outHeader.numSamplerStates_ = (pkg.outSamplerStateHeaders.length : Int) := by
  obtain ⟨_, _, hb, hhead⟩ := Convert_records hok
  obtain ⟨hlen, hnum, _⟩ := Convert_unit_counts hok
  have hth := Convert_techniqueHeaders hok
  obtain ⟨_, _, _, _, _, _, _, hpkg⟩ := Convert_ok_inv hok
  have hss : pkg.outSamplerStateHeaders
      = samplerStateHeaders env.samplerStateNameCap samplerStates := by
    rw [hpkg]
  refine ⟨?_, ?_, ?_, ?_⟩
  · rw [hhead, hb]
    simp only [makeHeader, List.length_map, all_length]
    push_cast
    rfl
  · rw [hnum, hlen]
  · rw [hhead, hth]
    simp [makeHeader]
  · rw [hhead, hss]
    simp [makeHeader, samplerStateHeaders]

/-- Claim C15 at the conversion of `sampleTechnique` under `reflectEnv`: five
binding-name records, two bytecode headers, one technique record. -/
theorem C15_header_counts_match_records_witness :
    Convert reflectEnv [sampleTechnique] [] = .ok reflectPackage ∧
    (reflectPackage.outHeader.numCBuffers_ + reflectPackage.outHeader.numSamplers_
      + reflectPackage.outHeader.numSRVs_ + reflectPackage.outHeader.numUAVs_
        = (reflectPackage.outBindingHeaders.length : Int) ∧
    reflectPackage.outHeader.numShaders_ = (reflectPackage.outBytecodeHeaders.length : Int) ∧
    reflectPackage.outHeader.numTechniques_
      = (reflectPackage.outTechniqueHeaders.length : Int) ∧
    reflectPackage.outHeader.numSamplerStates_
      = (reflectPackage.outSamplerStateHeaders.length : Int)) :=
  ⟨rfl, C15_header_counts_match_records reflectEnv [sampleTechnique] [] reflectPackage rfl⟩

/-! ## Diagnostics of the compiler -/

theorem compileLoop_diag
    (compile : String → String → String → ShaderType → Except String ShaderCompileOutput) :
    ∀ (cis : List CompileInfo) (acc : List ShaderCompileOutput) (err : String),
      (compileLoop compile cis acc).2 = some err →
      ∃ pre f rest, cis = pre ++ f :: rest ∧ compileCalls compile cis = pre ++ [f] ∧
        compile f.name_ f.code_ f.entryPoint_ f.type_ = .error err ∧
        ∀ c ∈ pre, ∃ o, compile c.name_ c.code_ c.entryPoint_ c.type_ = .ok o
  | [], acc, err, h => by simp [compileLoop] at h
  | c :: rest, acc, err, h => by
    simp only [compileLoop] at h
    cases hc : compile c.name_ c.code_ c.entryPoint_ c.type_ with
    | error e =>
      rw [hc] at h
      simp only [Option.some.injEq] at h
      subst h
      exact ⟨[], c, rest, rfl, by simp [compileCalls, hc], hc, by simp⟩
    | ok o =>
      rw [hc] at h
      obtain ⟨pre, f, rest1, hsplit, hcalls, hf, hpre⟩ := compileLoop_diag compile rest _ err h
      refine ⟨c :: pre, f, rest1, by simp [hsplit], by simp [compileCalls, hc, hcalls], hf, ?_⟩
      intro c1 hc1
      rcases List.mem_cons.mp hc1 with h1 | h1
      · subst h1; exact ⟨o, hc⟩
      · exact hpre c1 h1

theorem compileLoop_none
    (compile : String → String → String → ShaderType → Except String ShaderCompileOutput) :
    ∀ (cis : List CompileInfo) (acc : List ShaderCompileOutput),
      (compileLoop compile cis acc).2 = none →
      compileCalls compile cis = cis ∧
        ∀ c ∈ cis, ∃ o, compile c.name_ c.code_ c.entryPoint_ c.type_ = .ok o
  | [], _, _ => by simp [compileCalls]
  | c :: rest, acc, h => by
    simp only [compileLoop] at h
    cases hc : compile c.name_ c.code_ c.entryPoint_ c.type_ with
    | error e =>
      rw [hc] at h
      simp at h
    | ok o =>
      rw [hc] at h
      obtain ⟨hcalls, hall⟩ := compileLoop_none compile rest _ h
      refine ⟨by simp [compileCalls, hc, hcalls], ?_⟩
      intro c1 hc1
      rcases List.mem_cons.mp hc1 with h1 | h1
      · subst h1; exact ⟨o, hc⟩
      · exact hall c1 h1

theorem pass1_diag (env : Env) (techniques : List ShaderTechniqueInfo) :
    (pass1 env techniques).2.2 = (compileLoop env.compile (pass1 env techniques).1 []).2 := rfl

theorem pass2_diag (env : Env) (techniques : List ShaderTechniqueInfo) :
    (pass2 env techniques).2.2 = (compileLoop env.compile (pass2 env techniques).1 []).2 := rfl

/-- The returned value of a run is true exactly when the conversion produced a
package, and then the package is what was written. -/
theorem ConvertRun_retVal (env : Env) (techniques : List ShaderTechniqueInfo)
    (samplerStates : List ShaderSamplerStateInfo) :
    (ConvertRun env techniques samplerStates).retVal = true ↔
      ∃ pkg, Convert env techniques samplerStates = .ok pkg ∧
        (ConvertRun env techniques samplerStates).written = some pkg := by
  unfold ConvertRun
  simp only
  split
  · rename_i e h1
    simp [Convert, h1]
  · rename_i h1
    split
    · rename_i e h2
      simp [Convert, h1, h2]
    · split
      · rename_i pkg hok
        simp [hok]
      · simp
      · simp

/-- Claim C11.  When the compiler returns a diagnostic for some unit of the
first pass or of the second pass, the run of Convert returns false with a
compile error, the destination file is not opened, nothing is written, no
output is registered, and the compiler is invoked on no unit after the failing
one: the calls are the units of the passes in order up to the first unit with a
diagnostic, which is the last call. -/
theorem C11_diagnostic_aborts_conversion (env : Env) (techniques : List ShaderTechniqueInfo)
    (samplerStates : List ShaderSamplerStateInfo)
    (hfail : (∃ c ∈ (pass1 env techniques).1, ∃ err,
        env.compile c.name_ c.code_ c.entryPoint_ c.type_ = .error err) ∨
      (∃ c ∈ (pass2 env techniques).1, ∃ err,
        env.compile c.name_ c.code_ c.entryPoint_ c.type_ = .error err)) :
    (ConvertRun env techniques samplerStates).retVal = false ∧
    (ConvertRun env techniques samplerStates).destOpened = false ∧
    (ConvertRun env techniques samplerStates).written = none ∧
    (ConvertRun env techniques samplerStates).outputAdded = false ∧
    ∃ (pass : Nat) (pre : List CompileInfo) (f : CompileInfo) (rest : List CompileInfo)
      (err : String),
      Convert env techniques samplerStates = .error (.compileFailed pass err) ∧
      env.compile f.name_ f.code_ f.entryPoint_ f.type_ = .error err ∧
      (∀ c ∈ pre, ∃ o, env.compile c.name_ c.code_ c.entryPoint_ c.type_ = .ok o) ∧
      ((pass = 1 ∧ (pass1 env techniques).1 = pre ++ f :: rest ∧
          (ConvertRun env techniques samplerStates).compiled = pre ++ [f]) ∨
       (pass = 2 ∧ (pass2 env techniques).1 = pre ++ f :: rest ∧
          (ConvertRun env techniques samplerStates).compiled
            = (pass1 env techniques).1 ++ (pre ++ [f]))) := by
  cases h1 : (pass1 env techniques).2.2 with
  | some err =>
    obtain ⟨pre, f, rest, hsplit, hcalls, hf, hpre⟩ :=
      compileLoop_diag env.compile _ _ err ((pass1_diag env techniques).symm.trans h1)
    have hrun : ConvertRun env techniques samplerStates
        = ⟨compileCalls env.compile (pass1 env techniques).1, false, none, false, false⟩ := by
      simp only [ConvertRun, h1]
    have hconv : Convert env techniques samplerStates = .error (.compileFailed 1 err) := by
      simp only [Convert, h1]
    rw [hrun]
    exact ⟨rfl, rfl, rfl, rfl, 1, pre, f, rest, err, hconv, hf, hpre,
      Or.inl ⟨rfl, hsplit, hcalls⟩⟩
  | none =>
    obtain ⟨hcalls1, hall1⟩ :=
      compileLoop_none env.compile _ _ ((pass1_diag env techniques).symm.trans h1)
    have hfail2 : ∃ c ∈ (pass2 env techniques).1, ∃ err,
        env.compile c.name_ c.code_ c.entryPoint_ c.type_ = .error err := by
      rcases hfail with ⟨c, hc, err, he⟩ | h
      · obtain ⟨o, ho⟩ := hall1 c hc
        rw [ho] at he
        cases he
      · exact h
    cases h2 : (pass2 env techniques).2.2 with
    | none =>
      obtain ⟨_, hall2⟩ :=
        compileLoop_none env.compile _ _ ((pass2_diag env techniques).symm.trans h2)
      obtain ⟨c, hc, err, he⟩ := hfail2
      obtain ⟨o, ho⟩ := hall2 c hc
      rw [ho] at he
      cases he
    | some err =>
      obtain ⟨pre, f, rest, hsplit, hcalls, hf, hpre⟩ :=
        compileLoop_diag env.compile _ _ err ((pass2_diag env techniques).symm.trans h2)
      have hrun : ConvertRun env techniques samplerStates
          = ⟨compileCalls env.compile (pass1 env techniques).1
              ++ compileCalls env.compile (pass2 env techniques).1, false, none, false, false⟩ := by
        simp only [ConvertRun, h1, h2]
      have hconv : Convert env techniques samplerStates = .error (.compileFailed 2 err) := by
        simp only [Convert, h1, h2]
      rw [hrun]
      exact ⟨rfl, rfl, rfl, rfl, 2, pre, f, rest, err, hconv, hf, hpre,
        Or.inr ⟨rfl, hsplit, by rw [hcalls1, hcalls]⟩⟩

/-- Claim C11 at a technique with the stages `v`, `g` and `p` under a compiler
that fails on `g`: the first pass has the units `v`, `g`, `p` in this order; the
compiler is invoked on `v` and on `g`, and never on `p`. -/
theorem C11_diagnostic_aborts_conversion_witness :
    ((pass1 failingEnv [threeStageTechnique]).1.map (·.entryPoint_) = ["v", "g", "p"]) ∧
    (ConvertRun failingEnv [threeStageTechnique] []).compiled.map (·.entryPoint_)
      = ["v", "g"] ∧
    ((ConvertRun failingEnv [threeStageTechnique] []).retVal = false ∧
    (ConvertRun failingEnv [threeStageTechnique] []).destOpened = false ∧
    (ConvertRun failingEnv [threeStageTechnique] []).written = none ∧
    (ConvertRun failingEnv [threeStageTechnique] []).outputAdded = false ∧
    ∃ (pass : Nat) (pre : List CompileInfo) (f : CompileInfo) (rest : List CompileInfo)
      (err : String),
      Convert failingEnv [threeStageTechnique] [] = .error (.compileFailed pass err) ∧
      failingEnv.compile f.name_ f.code_ f.entryPoint_ f.type_ = .error err ∧
      (∀ c ∈ pre, ∃ o, failingEnv.compile c.name_ c.code_ c.entryPoint_ c.type_ = .ok o) ∧
      ((pass = 1 ∧ (pass1 failingEnv [threeStageTechnique]).1 = pre ++ f :: rest ∧
          (ConvertRun failingEnv [threeStageTechnique] []).compiled = pre ++ [f]) ∨
       (pass = 2 ∧ (pass2 failingEnv [threeStageTechnique]).1 = pre ++ f :: rest ∧
          (ConvertRun failingEnv [threeStageTechnique] []).compiled
            = (pass1 failingEnv [threeStageTechnique]).1 ++ (pre ++ [f])))) :=
  ⟨by decide, by decide, C11_diagnostic_aborts_conversion failingEnv [threeStageTechnique] []
    (Or.inl ⟨⟨"a.esf", "code", "g", .GS⟩, by decide, "error X3000: syntax error", rfl⟩)⟩

/-! ## The technique assertion -/

/-- The stage index of the record of a technique of the list is -1 exactly when
the technique declares no entry point for the stage. -/
theorem techniqueHeader_stage_absent_iff (env : Env) (techniques : List ShaderTechniqueInfo)
    (t : ShaderTechniqueInfo) (ht : t ∈ techniques) (k : ShaderType) :
    (techniqueHeader env.techniqueNameCap (pass2 env techniques).1 t).stage k = -1
      ↔ t.entry k = "" := by
  rw [techniqueHeader_stage, findShaderLoop_eq_neg_one _ _ _ (le_refl 0)]
  constructor
  · intro h
    by_contra hne
    have hpos : 0 < (t.entry k).length := string_length_pos_iff.mpr hne
    obtain ⟨c, hc, he⟩ :=
      (@mem_pass2_entryPoints env techniques (t.entry k)).mpr ⟨hpos, t, ht, k, rfl⟩
    exact h c hc he
  · intro h c hc he
    have := ((@mem_pass2_entryPoints env techniques (t.entry k)).mp ⟨c, hc, he⟩).1
    rw [h] at this
    simp at this

/-- The technique assertion holds for a technique of the list exactly when the
technique declares a vertex or a compute entry point. -/
theorem technique_assertion_iff (env : Env) (techniques : List ShaderTechniqueInfo)
    (t : ShaderTechniqueInfo) (ht : t ∈ techniques) :
    ((techniqueHeader env.techniqueNameCap (pass2 env techniques).1 t).vs_ ≠ -1 ∨
      (techniqueHeader env.techniqueNameCap (pass2 env techniques).1 t).cs_ ≠ -1)
      ↔ (t.vs_ ≠ "" ∨ t.cs_ ≠ "") := by
  have hv := techniqueHeader_stage_absent_iff env techniques t ht .VS
  have hc := techniqueHeader_stage_absent_iff env techniques t ht .CS
  simp only [ShaderTechniqueHeader.stage, ShaderTechniqueInfo.entry] at hv hc
  rw [Ne, Ne, hv, hc]

/-- Claim C12, as stated, fails: under a compiler whose reflection depends on
the generated code, the table collected from the first pass holds `a` at 0 and
`b` at 1, the tables recomputed from the second pass hold only `b` at 0, and the
conversion still produces a package, with the single binding-name record `b`. -/
theorem C12_diverging_tables_still_produce_package :
    usedBindings (pass1 driftEnv [computeTechnique]).2.1 = [("a", 0), ("b", 1)] ∧
    (finalTables (pass2 driftEnv [computeTechnique]).2.1).all = [("b", 0)] ∧
    (Convert driftEnv [computeTechnique] []).toOption.map (·.outBindingHeaders)
      = some [⟨"b"⟩] ∧
    (Convert driftEnv [computeTechnique] []).toOption.map (·.outBindingMappings)
      = some [⟨0, 0⟩] := by
  decide

/-- Claim C12, amended.  The conversion makes no comparison between the table
collected from the first pass and the tables recomputed from the second pass:
whenever both passes end without a diagnostic, every technique declares a
vertex or a compute entry point (or the assertion is compiled out) and the
destination can be created, a package is written, and its binding-name records
and the indices of its mappings are those of the tables recomputed from the
second pass, whether or not they agree with the table of the first pass. -/
theorem C12_package_built_from_pass2_tables (env : Env)
    (techniques : List ShaderTechniqueInfo) (samplerStates : List ShaderSamplerStateInfo)
    (h1 : (pass1 env techniques).2.2 = none) (h2 : (pass2 env techniques).2.2 = none)
    (ht : env.dbgAsserts = true → ∀ t ∈ techniques, t.vs_ ≠ "" ∨ t.cs_ ≠ "")
    (hc : env.canCreateDest = true) :
    ∃ pkg, Convert env techniques samplerStates = .ok pkg ∧
      pkg.outBindingHeaders
        = (finalTables (pass2 env techniques).2.1).all.map
            (fun e => ⟨strcpy_s env.bindingNameCap e.1⟩) ∧
      pkg.outBindingMappings.map ShaderBindingMapping.view
        = flattenedMappings (finalTables (pass2 env techniques).2.1)
            (pass2 env techniques).2.1 := by
  obtain ⟨pkg, hok⟩ := Convert_succeeds env techniques samplerStates h1 h2
    (fun hd t htm => (technique_assertion_iff env techniques t htm).mpr (ht hd t htm)) hc
  obtain ⟨hm, _, hb, _⟩ := Convert_records hok
  exact ⟨pkg, hok, hb, hm⟩

/-- Claim C12, amended, at the conversion under `driftEnv`, where the tables of
the two passes differ. -/
theorem C12_package_built_from_pass2_tables_witness :
    usedBindings (pass1 driftEnv [computeTechnique]).2.1
      ≠ (finalTables (pass2 driftEnv [computeTechnique]).2.1).all ∧
    ∃ pkg, Convert driftEnv [computeTechnique] [] = .ok pkg ∧
      pkg.outBindingHeaders
        = (finalTables (pass2 driftEnv [computeTechnique]).2.1).all.map
            (fun e => ⟨strcpy_s driftEnv.bindingNameCap e.1⟩) ∧
      pkg.outBindingMappings.map ShaderBindingMapping.view
        = flattenedMappings (finalTables (pass2 driftEnv [computeTechnique]).2.1)
            (pass2 driftEnv [computeTechnique]).2.1 :=
  ⟨by decide, C12_package_built_from_pass2_tables driftEnv [computeTechnique] [] rfl rfl
    (by decide) rfl⟩

/-- Claim C13, evaluated where it fails.  A technique with a pixel stage only
declares neither a vertex nor a compute entry point; when `DBG_ASSERT` does not
stop the run, the conversion goes on past line 357, the record is emitted with
the vertex index -1 and the compute index -1, and the package is written with
one technique record. -/
theorem C13_record_without_vertex_or_compute_emitted :
    pixelOnlyTechnique.vs_ = "" ∧ pixelOnlyTechnique.cs_ = "" ∧
    releaseEnv.dbgAsserts = false ∧
    (Convert releaseEnv [pixelOnlyTechnique] []).toOption.map (·.outTechniqueHeaders)
      = some [{ name_ := "t", vs_ := -1, gs_ := -1, hs_ := -1, ds_ := -1, ps_ := 0, cs_ := -1,
                rs_ := 0 }] ∧
    (Convert releaseEnv [pixelOnlyTechnique] []).toOption.map (·.outHeader.numTechniques_)
      = some 1 := by
  decide

/-- Under the reading of `DBG_ASSERT` as a stop of the run (`dbgAsserts` true):
every technique record of a produced package has a vertex index or a compute
index different from -1, and a technique list that contains a technique whose
vertex and compute entry points are both empty produces no package. -/
theorem technique_records_guarded_when_assertion_stops (env : Env)
    (techniques : List ShaderTechniqueInfo) (samplerStates : List ShaderSamplerStateInfo)
    (hd : env.dbgAsserts = true) :
    (∀ pkg, Convert env techniques samplerStates = .ok pkg →
      ∀ h ∈ pkg.outTechniqueHeaders, h.vs_ ≠ -1 ∨ h.cs_ ≠ -1) ∧
    ((∃ t ∈ techniques, t.vs_ = "" ∧ t.cs_ = "") →
      ∀ pkg, Convert env techniques samplerStates ≠ .ok pkg) := by
  have key : ∀ pkg, Convert env techniques samplerStates = .ok pkg →
      ∀ t ∈ techniques,
        (techniqueHeader env.techniqueNameCap (pass2 env techniques).1 t).vs_ ≠ -1 ∨
        (techniqueHeader env.techniqueNameCap (pass2 env techniques).1 t).cs_ ≠ -1 := by
    intro pkg hok
    obtain ⟨_, _, st, ths, _, hths, _, _⟩ := Convert_ok_inv hok
    rw [hd] at hths
    exact techniqueLoop_checked _ _ _ _ _ hths
  constructor
  · intro pkg hok h hh
    rw [Convert_techniqueHeaders hok, List.mem_map] at hh
    obtain ⟨t, ht, rfl⟩ := hh
    exact key pkg hok t ht
  · rintro ⟨t, ht, hv, hcs⟩ pkg hok
    have := (technique_assertion_iff env techniques t ht).mp (key pkg hok t ht)
    rcases this with h | h
    · exact h hv
    · exact h hcs

/-! ## The bytecode region -/

/-- While the running offset and the bytes still to come stay below 2^31, the
header of a unit holds the number of bytes of the units before it as offset and
the number of bytes of the unit as length. -/
theorem headersFrom_exact :
    ∀ (outs : List ShaderCompileOutput) (off : Int), 0 ≤ off →
      off + ((writtenBytecode outs).length : Int) < 2147483648 →
      ∀ (i : Nat) (u : ShaderCompileOutput) (hdr : ShaderBytecodeHeader),
        outs[i]? = some u → (headersFrom off outs)[i]? = some hdr →
        hdr.offset_ = off + (((outs.take i).map (fun x => x.byteCode.length)).sum : Nat) ∧
        hdr.numBytes_ = (u.byteCode.length : Int)
  | [], _, _, _, i, u, hdr, hu, _ => by simp at hu
  | c :: rest, off, h0, h1, i, u, hdr, hu, hh => by
    rw [writtenBytecode_cons] at h1
    push_cast at h1
    have hlen : wrapI32 (c.byteCode.length : Int) = c.byteCode.length :=
      wrapI32_of_range (by omega) (by omega)
    have hoff : wrapI32 (off + wrapI32 (c.byteCode.length : Int))
        = off + c.byteCode.length := by
      rw [hlen]; exact wrapI32_of_range (by omega) (by omega)
    simp only [headersFrom, hoff] at hh
    cases i with
    | zero =>
      simp only [List.getElem?_cons_zero, Option.some.injEq] at hu hh
      subst hu hh
      simp [bytecodeHeader, hlen]
    | succ j =>
      simp only [List.getElem?_cons_succ] at hu hh
      obtain ⟨ho, hn⟩ := headersFrom_exact rest (off + c.byteCode.length) (by omega) (by omega)
        j u hdr hu hh
      refine ⟨?_, hn⟩
      rw [ho]
      simp only [List.take_succ_cons, List.map_cons, List.sum_cons]
      push_cast
      ring

/-- Claim C16, as stated, fails: for a unit with 2^31 bytes of bytecode the
header holds the length -2^31, so no slice of the written region of that length
is the bytecode of the unit. -/
theorem C16_slice_differs_for_huge_bytecode :
    ∃ pkg hdr, Convert hugeEnv [computeTechnique] [] = .ok pkg ∧
      (pass2 hugeEnv [computeTechnique]).2.1 = [hugeOutput] ∧
      pkg.outBytecodeHeaders = [hdr] ∧
      hugeOutput.byteCode.length = 2147483648 ∧
      hdr.offset_ = 0 ∧ hdr.numBytes_ = -2147483648 ∧
      (pkg.bytecode.drop hdr.offset_.toNat).take hdr.numBytes_.toNat ≠ hugeOutput.byteCode := by
  have houts : (pass2 hugeEnv [computeTechnique]).2.1 = [hugeOutput] := rfl
  obtain ⟨pkg, hok⟩ := Convert_succeeds hugeEnv [computeTechnique] [] rfl rfl
    (fun _ t ht => by
      simp only [List.mem_singleton] at ht
      subst ht
      exact Or.inr (by decide)) rfl
  obtain ⟨_, hh, _, _⟩ := Convert_records hok
  have hlen : hugeOutput.byteCode.length = 2147483648 := by
    simp only [hugeOutput, List.length_replicate]
  have hnum : wrapI32 (2147483648 : Int) = -2147483648 := by decide
  refine ⟨pkg, bytecodeHeader 0 hugeOutput, hok, houts, ?_, hlen, rfl, ?_, ?_⟩
  · rw [hh, houts]
    rfl
  · simp only [bytecodeHeader, hlen]
    exact hnum
  · have hn : (bytecodeHeader 0 hugeOutput).numBytes_ = -2147483648 := by
      simp only [bytecodeHeader, hlen]
      exact hnum
    rw [hn]
    intro h
    have h2 := congrArg List.length h
    rw [hlen] at h2
    simp at h2

/-- Claim C16, amended.  In a produced package whose bytecode region has fewer
than 2^31 bytes, the region is the concatenation of the bytecodes of the units
of the second pass in compile order, and for every unit the header holds a
non-negative offset and the length of the bytecode of the unit, and the slice
of the region at that offset of that length is the bytecode of the unit. -/
theorem C16_region_slices_are_unit_bytecode (env : Env)
    (techniques : List ShaderTechniqueInfo) (samplerStates : List ShaderSamplerStateInfo)
    (pkg : Package) (hok : Convert env techniques samplerStates = .ok pkg)
    (hfit : (pkg.bytecode.length : Int) < 2147483648) :
    pkg.bytecode = (pass2 env techniques).2.1.flatMap (·.byteCode) ∧
    ∀ (i : Nat) (u : ShaderCompileOutput) (hdr : ShaderBytecodeHeader),
      (pass2 env techniques).2.1[i]? = some u → pkg.outBytecodeHeaders[i]? = some hdr →
      0 ≤ hdr.offset_ ∧ hdr.numBytes_ = (u.byteCode.length : Int) ∧
      (pkg.bytecode.drop hdr.offset_.toNat).take hdr.numBytes_.toNat = u.byteCode := by
  obtain ⟨_, hh, _, _⟩ := Convert_records hok
  obtain ⟨_, _, _, _, _, _, _, hpkg⟩ := Convert_ok_inv hok
  have hbc : pkg.bytecode = writtenBytecode (pass2 env techniques).2.1 := by rw [hpkg]
  rw [hbc] at hfit
  refine ⟨hbc, ?_⟩
  intro i u hdr hu hhdr
  rw [hh] at hhdr
  obtain ⟨ho, hn⟩ := headersFrom_exact _ 0 (le_refl 0) (by omega) i u hdr hu hhdr
  have hslice := flatMap_drop_take (fun x : ShaderCompileOutput => x.byteCode)
    (pass2 env techniques).2.1 i u hu
  refine ⟨by rw [ho]; omega, hn, ?_⟩
  rw [hbc, ho, hn]
  simp only [zero_add, Int.toNat_ofNat]
  exact hslice

/-- Claim C16, amended, at the second unit of the conversion under `reflectEnv`:
offset 3, length 2, bytes 4 and 5. -/
theorem C16_region_slices_are_unit_bytecode_witness :
    Convert reflectEnv [sampleTechnique] [] = .ok reflectPackage ∧
    reflectPackage.outBytecodeHeaders[1]? = some ⟨2, 1, 1, 1, .PS, 3, 2⟩ ∧
    (reflectPackage.bytecode.drop 3).take 2 = [4, 5] ∧
    (reflectPackage.bytecode = (pass2 reflectEnv [sampleTechnique]).2.1.flatMap (·.byteCode) ∧
    ∀ (i : Nat) (u : ShaderCompileOutput) (hdr : ShaderBytecodeHeader),
      (pass2 reflectEnv [sampleTechnique]).2.1[i]? = some u →
      reflectPackage.outBytecodeHeaders[i]? = some hdr →
      0 ≤ hdr.offset_ ∧ hdr.numBytes_ = (u.byteCode.length : Int) ∧
      (reflectPackage.bytecode.drop hdr.offset_.toNat).take hdr.numBytes_.toNat = u.byteCode) :=
  ⟨rfl, rfl, rfl, C16_region_slices_are_unit_bytecode reflectEnv [sampleTechnique] []
    reflectPackage rfl (by decide)⟩

/-! ## Names in fixed-capacity fields -/

theorem strcpy_s_length (cap : Nat) (s : String) : (strcpy_s cap s).length ≤ cap - 1 := by
  simp only [strcpy_s, String.length, List.length_take]
  omega

/-- Claim C17, as stated, fails: with name fields of 8 characters, a binding
name of 15 characters, a technique name of 14 and a sampler-state name of 13
characters do not stop the conversion; the package is written and holds the
first 7 characters of each name. -/
theorem C17_long_names_stored_truncated :
    (Convert longNameEnv [longNameTechnique] [longNameSamplerState]).toOption.map
        (·.outBindingHeaders) = some [⟨"constan"⟩] ∧
    (Convert longNameEnv [longNameTechnique] [longNameSamplerState]).toOption.map
        (fun pkg => pkg.outTechniqueHeaders.map (·.name_)) = some ["TECH_lo"] ∧
    (Convert longNameEnv [longNameTechnique] [longNameSamplerState]).toOption.map
        (·.outSamplerStateHeaders) = some [⟨"SS_long", 3⟩] := by
  decide

/-- Claim C17, amended.  The length of a name never makes the conversion fail:
whenever both passes end without a diagnostic, every technique declares a
vertex or a compute entry point (or the assertion is compiled out) and the
destination can be created, a package is written; each binding name, technique
name and sampler-state name is stored as copied into its fixed-capacity field,
that is cut to the capacity less one character and unchanged when it fits. -/
theorem C17_names_stored_through_truncating_copy (env : Env)
    (techniques : List ShaderTechniqueInfo) (samplerStates : List ShaderSamplerStateInfo)
    (h1 : (pass1 env techniques).2.2 = none) (h2 : (pass2 env techniques).2.2 = none)
    (ht : env.dbgAsserts = true → ∀ t ∈ techniques, t.vs_ ≠ "" ∨ t.cs_ ≠ "")
    (hc : env.canCreateDest = true) :
    ∃ pkg, Convert env techniques samplerStates = .ok pkg ∧
      pkg.outBindingHeaders.map (·.name_)
        = (finalTables (pass2 env techniques).2.1).all.map
            (fun e => strcpy_s env.bindingNameCap e.1) ∧
      pkg.outTechniqueHeaders.map (·.name_)
        = techniques.map (fun t => strcpy_s env.techniqueNameCap t.name_) ∧
      pkg.outSamplerStateHeaders.map (·.name_)
        = samplerStates.map (fun s => strcpy_s env.samplerStateNameCap s.name_) ∧
      ∀ (cap : Nat) (s : String),
        (strcpy_s cap s).data = s.data.take (cap - 1) ∧ (strcpy_s cap s).length ≤ cap - 1 ∧
        (s.length < cap → strcpy_s cap s = s) := by
  obtain ⟨pkg, hok⟩ := Convert_succeeds env techniques samplerStates h1 h2
    (fun hd t htm => (technique_assertion_iff env techniques t htm).mpr (ht hd t htm)) hc
  obtain ⟨_, _, hb, _⟩ := Convert_records hok
  have hth := Convert_techniqueHeaders hok
  obtain ⟨_, _, _, _, _, _, _, hpkg⟩ := Convert_ok_inv hok
  have hss : pkg.outSamplerStateHeaders
      = samplerStateHeaders env.samplerStateNameCap samplerStates := by
    rw [hpkg]
  refine ⟨pkg, hok, ?_, ?_, ?_, ?_⟩
  · rw [hb]
    simp [Function.comp_def]
  · rw [hth]
    simp [Function.comp_def, techniqueHeader]
  · rw [hss]
    simp [Function.comp_def, samplerStateHeaders]
  · intro cap s
    exact ⟨rfl, strcpy_s_length cap s, strcpy_s_of_fits cap s⟩

/-- Claim C17, amended, at the conversion with the three long names. -/
theorem C17_names_stored_through_truncating_copy_witness :
    ∃ pkg, Convert longNameEnv [longNameTechnique] [longNameSamplerState] = .ok pkg ∧
      pkg.outBindingHeaders.map (·.name_)
        = (finalTables (pass2 longNameEnv [longNameTechnique]).2.1).all.map
            (fun e => strcpy_s longNameEnv.bindingNameCap e.1) ∧
      pkg.outTechniqueHeaders.map (·.name_)
        = [longNameTechnique].map (fun t => strcpy_s longNameEnv.techniqueNameCap t.name_) ∧
      pkg.outSamplerStateHeaders.map (·.name_)
        = [longNameSamplerState].map
            (fun s => strcpy_s longNameEnv.samplerStateNameCap s.name_) ∧
      ∀ (cap : Nat) (s : String),
        (strcpy_s cap s).data = s.data.take (cap - 1) ∧ (strcpy_s cap s).length ≤ cap - 1 ∧
        (s.length < cap → strcpy_s cap s = s) :=
  C17_names_stored_through_truncating_copy longNameEnv [longNameTechnique]
    [longNameSamplerState] rfl rfl (by decide) rfl

/-! ## Handle slots -/

theorem MAX_INDEX_eq : MAX_INDEX = 65535 := by decide

/-- Claim C20, as stated, fails: the handle of type 0 with index 65535 and the
handle of type 1 with index 0 hold values their bit fields can hold and differ
in (type, index), but both read position 65535 of `magicIDs_`, so with equal
magic values `IsValid` answers the same for both. -/
theorem C20_slots_collide_at_index_65535 :
    (Handle.mk 65535 7 0).InRange ∧ (Handle.mk 0 7 1).InRange ∧
    ((Handle.mk 65535 7 0).type_, (Handle.mk 65535 7 0).index_)
      ≠ ((Handle.mk 0 7 1).type_, (Handle.mk 0 7 1).index_) ∧
    (Handle.mk 65535 7 0).slot = 65535 ∧ (Handle.mk 0 7 1).slot = 65535 ∧
    ∀ magicIDs : Nat → Nat,
      IsValid magicIDs (Handle.mk 65535 7 0) = IsValid magicIDs (Handle.mk 0 7 1) := by
  refine ⟨by unfold Handle.InRange; decide, by unfold Handle.InRange; decide, by decide,
    by decide, by decide, ?_⟩
  intro magicIDs
  have h1 : (Handle.mk 65535 7 0).slot = 65535 := by decide
  have h2 : (Handle.mk 0 7 1).slot = 65535 := by decide
  simp only [IsValid, h1, h2]

/-- Claim C20, amended.  For two handles whose indices are below `MAX_INDEX`
(0 to 65534), whatever their types, equal positions `index + type * MAX_INDEX`
force equal types and equal indices: `IsValid` reads different positions of
`magicIDs_` for handles that differ in (type, index). -/
theorem C20_slot_injective_below_max_index (h1 h2 : Handle)
    (hi1 : h1.index_ < MAX_INDEX) (hi2 : h2.index_ < MAX_INDEX)
    (hne : (h1.type_, h1.index_) ≠ (h2.type_, h2.index_)) :
    h1.slot ≠ h2.slot := by
  rw [MAX_INDEX_eq] at hi1 hi2
  intro hs
  simp only [Handle.slot, MAX_INDEX_eq] at hs
  apply hne
  have ht : h1.type_ = h2.type_ := by omega
  have hi : h1.index_ = h2.index_ := by omega
  rw [ht, hi]

/-- Claim C20, amended, at the handles (type 0, index 65534) and (type 1,
index 0): positions 65534 and 65535. -/
theorem C20_slot_injective_below_max_index_witness :
    (Handle.mk 65534 7 0).slot = 65534 ∧ (Handle.mk 0 7 1).slot = 65535 ∧
    (Handle.mk 65534 7 0).slot ≠ (Handle.mk 0 7 1).slot :=
  ⟨by decide, by decide,
    C20_slot_injective_below_max_index (Handle.mk 65534 7 0) (Handle.mk 0 7 1)
      (by decide) (by decide) (by decide)⟩

/-! ## The scenario of one technique with a vertex and a pixel stage -/

/-- Claim C14, evaluated where it fails.  One technique with the vertex entry
point `main` and the pixel entry point `main`, the other four entry points
empty, under a compiler that succeeds and reflects no bindings: the four
category counts are 0, there are no binding-name records and no mappings, two
units are compiled, and the technique record holds the vertex index 0 and the
pixel index 0, not 1. -/
theorem C14_equal_names_give_pixel_index_zero :
    Convert plainEnv [sameNameTechnique] []
      = .ok { outHeader := ⟨0, 0, 0, 0, 2, 1, 0⟩
              outBindingHeaders := []
              outBytecodeHeaders := [⟨0, 0, 0, 0, .VS, 0, 1⟩, ⟨0, 0, 0, 0, .PS, 1, 1⟩]
              outBindingMappings := []
              outTechniqueHeaders :=
                [{ name_ := "t", vs_ := 0, gs_ := -1, hs_ := -1, ds_ := -1, ps_ := 0, cs_ := -1,
                   rs_ := 0 }]
              outSamplerStateHeaders := []
              bytecode := [7, 7] } ∧
    (pass2 plainEnv [sameNameTechnique]).1.map (fun c => (c.type_, c.entryPoint_))
      = [(ShaderType.VS, "main"), (ShaderType.PS, "main")] :=
  ⟨rfl, by decide⟩

/-! ## The table of the first pass and the tables of the second pass -/

theorem addBindingStep_name (st : BindingMap × Int) (b b1 : ShaderBinding)
    (h : b.name_ = b1.name_) : addBindingStep st b = addBindingStep st b1 := by
  simp only [addBindingStep, h]

/-- The result of `AddBindings` depends on the names of the bindings only. -/
theorem AddBindings_names :
    ∀ (bs bs1 : List ShaderBinding) (m : BindingMap) (i : Int),
      bs.map (·.name_) = bs1.map (·.name_) → AddBindings bs m i = AddBindings bs1 m i
  | [], [], _, _, _ => rfl
  | [], _ :: _, _, _, h => by simp at h
  | _ :: _, [], _, _, h => by simp at h
  | b :: rest, b1 :: rest1, m, i, h => by
    simp only [List.map_cons, List.cons.injEq] at h
    have e1 := AddBindings_cons b rest (m, i)
    have e2 := AddBindings_cons b1 rest1 (m, i)
    simp only at e1 e2
    rw [e1, e2, addBindingStep_name (m, i) b b1 h.1]
    exact AddBindings_names rest rest1 _ _ h.2

/-- Entries under names that do not occur among the bindings stay in front of
the table untouched: `AddBindings` works on the rest of the table alone. -/
theorem AddBindings_shift (m : BindingMap) :
    ∀ (bs : List ShaderBinding) (e : BindingMap) (i : Int),
      (∀ b ∈ bs, b.name_ ∉ m.map Prod.fst) →
      AddBindings bs (m ++ e) i = (m ++ (AddBindings bs e i).1, (AddBindings bs e i).2)
  | [], _, _, _ => rfl
  | b :: rest, e, i, h => by
    have hb := h b (List.mem_cons_self _ _)
    have hnone := (find_eq_none_iff m b.name_).mpr hb
    have e1 := AddBindings_cons b rest (m ++ e, i)
    have e2 := AddBindings_cons b rest (e, i)
    simp only at e1 e2
    rw [e1, e2]
    have hstep : addBindingStep (m ++ e, i) b
        = (m ++ (addBindingStep (e, i) b).1, (addBindingStep (e, i) b).2) := by
      simp only [addBindingStep, find_append, hnone]
      split
      · simp [BindingMap.insert]
      · rfl
    rw [hstep]
    exact AddBindings_shift m rest _ _ (fun b1 hb1 => h b1 (List.mem_cons_of_mem _ hb1))

theorem AddBindings_keys_nil (bs : List ShaderBinding) (i : Int) (x : String) :
    x ∈ (AddBindings bs [] i).1.map Prod.fst ↔ x ∈ bs.map (·.name_) := by
  have := AddBindings_keys bs ([], i) x
  simpa using this

/-- When no name is reflected in two different categories, the single table
built from a list of units by the four loops of the first pass is the
concatenation of the four final tables built from the same units. -/
theorem usedBindings_eq_all (outs : List ShaderCompileOutput)
    (hdisj : ∀ c c1 : Category, c ≠ c1 → ∀ x, x ∈ (reflectedBindings c outs).map (·.name_) →
      x ∉ (reflectedBindings c1 outs).map (·.name_)) :
    usedBindings outs = (finalTables outs).all := by
  simp only [usedBindings, finalTables, BindingTables.all, addAllBindings_eq]
  have hs : ∀ b ∈ outs.flatMap (·.samplers_),
      b.name_ ∉ (AddBindings (outs.flatMap (·.cbuffers_)) [] 0).1.map Prod.fst := by
    intro b hb hx
    rw [AddBindings_keys_nil] at hx
    exact hdisj .cbuffer .sampler (by decide) b.name_ hx (List.mem_map_of_mem _ hb)
  have h2 := AddBindings_shift (AddBindings (outs.flatMap (·.cbuffers_)) [] 0).1
    (outs.flatMap (·.samplers_)) [] (AddBindings (outs.flatMap (·.cbuffers_)) [] 0).2 hs
  rw [List.append_nil] at h2
  rw [h2]
  simp only
  have hr : ∀ b ∈ outs.flatMap (·.srvs_),
      b.name_ ∉ ((AddBindings (outs.flatMap (·.cbuffers_)) [] 0).1
        ++ (AddBindings (outs.flatMap (·.samplers_)) []
            (AddBindings (outs.flatMap (·.cbuffers_)) [] 0).2).1).map Prod.fst := by
    intro b hb hx
    rw [List.map_append, List.mem_append, AddBindings_keys_nil, AddBindings_keys_nil] at hx
    rcases hx with hx | hx
    · exact hdisj .cbuffer .srv (by decide) b.name_ hx (List.mem_map_of_mem _ hb)
    · exact hdisj .sampler .srv (by decide) b.name_ hx (List.mem_map_of_mem _ hb)
  have h3 := AddBindings_shift _ (outs.flatMap (·.srvs_)) []
    (AddBindings (outs.flatMap (·.samplers_)) []
      (AddBindings (outs.flatMap (·.cbuffers_)) [] 0).2).2 hr
  rw [List.append_nil] at h3
  rw [h3]
  simp only
  have hu : ∀ b ∈ outs.flatMap (·.uavs_),
      b.name_ ∉ ((AddBindings (outs.flatMap (·.cbuffers_)) [] 0).1
        ++ (AddBindings (outs.flatMap (·.samplers_)) []
            (AddBindings (outs.flatMap (·.cbuffers_)) [] 0).2).1
        ++ (AddBindings (outs.flatMap (·.srvs_)) []
            (AddBindings (outs.flatMap (·.samplers_)) []
              (AddBindings (outs.flatMap (·.cbuffers_)) [] 0).2).2).1).map Prod.fst := by
    intro b hb hx
    rw [List.map_append, List.map_append, List.mem_append, List.mem_append,
      AddBindings_keys_nil, AddBindings_keys_nil, AddBindings_keys_nil] at hx
    rcases hx with (hx | hx) | hx
    · exact hdisj .cbuffer .uav (by decide) b.name_ hx (List.mem_map_of_mem _ hb)
    · exact hdisj .sampler .uav (by decide) b.name_ hx (List.mem_map_of_mem _ hb)
    · exact hdisj .srv .uav (by decide) b.name_ hx (List.mem_map_of_mem _ hb)
  have h4 := AddBindings_shift _ (outs.flatMap (·.uavs_)) []
    (AddBindings (outs.flatMap (·.srvs_)) []
      (AddBindings (outs.flatMap (·.samplers_)) []
        (AddBindings (outs.flatMap (·.cbuffers_)) [] 0).2).2).2 hu
  rw [List.append_nil] at h4
  rw [h4]

theorem reflected_names_of_units (c : Category) (outs1 outs2 : List ShaderCompileOutput)
    (h : outs1.map (fun u => (c.sel u).map (·.name_))
      = outs2.map (fun u => (c.sel u).map (·.name_))) :
    (reflectedBindings c outs1).map (·.name_) = (reflectedBindings c outs2).map (·.name_) := by
  have key : ∀ outs : List ShaderCompileOutput,
      (reflectedBindings c outs).map (·.name_)
        = (outs.map (fun u => (c.sel u).map (·.name_))).flatten := by
    intro outs
    simp only [reflectedBindings, List.flatMap_def, List.map_flatten, List.map_map,
      Function.comp_def]
  rw [key, key, h]

/-- The table of the first pass depends on the reflected names only. -/
theorem usedBindings_names (outs1 outs2 : List ShaderCompileOutput)
    (h : ∀ c : Category,
      (reflectedBindings c outs1).map (·.name_) = (reflectedBindings c outs2).map (·.name_)) :
    usedBindings outs1 = usedBindings outs2 := by
  have hc := h .cbuffer
  have hs := h .sampler
  have hr := h .srv
  have hu := h .uav
  simp only [reflectedBindings, Category.sel] at hc hs hr hu
  simp only [usedBindings, addAllBindings_eq]
  rw [AddBindings_names _ _ [] 0 hc, AddBindings_names _ _ _ _ hs, AddBindings_names _ _ _ _ hr,
    AddBindings_names _ _ _ _ hu]

/-- When no name is in two of the four tables, a lookup in the concatenation
of the tables finds what the lookup in the table of the category finds. -/
theorem find_all_of_table (outs : List ShaderCompileOutput)
    (hdisj : ∀ c c1 : Category, c ≠ c1 → ∀ x, x ∈ (reflectedBindings c outs).map (·.name_) →
      x ∉ (reflectedBindings c1 outs).map (·.name_))
    (c : Category) (x : String) (g : Int)
    (h : BindingMap.find ((finalTables outs).table c) x = some g) :
    BindingMap.find (finalTables outs).all x = some g := by
  have hx : x ∈ (reflectedBindings c outs).map (·.name_) := by
    rw [← finalTables_keys]
    by_contra hn
    rw [(find_eq_none_iff _ _).mpr hn] at h
    cases h
  have hnot : ∀ c1 : Category, c ≠ c1 →
      BindingMap.find ((finalTables outs).table c1) x = none := by
    intro c1 hne
    rw [find_eq_none_iff, finalTables_keys]
    exact hdisj c c1 hne x hx
  simp only [BindingTables.all, find_append]
  cases c
  · simp only [BindingTables.table] at h
    simp only [h]
  · have h0 := hnot .cbuffer (by decide)
    simp only [BindingTables.table] at h h0
    simp only [h0, h]
  · have h0 := hnot .cbuffer (by decide)
    have h1 := hnot .sampler (by decide)
    simp only [BindingTables.table] at h h0 h1
    simp only [h0, h1, h]
  · have h0 := hnot .cbuffer (by decide)
    have h1 := hnot .sampler (by decide)
    have h2 := hnot .srv (by decide)
    simp only [BindingTables.table] at h h0 h1 h2
    simp only [h0, h1, h2, h]

/-- Claim C18.  When every unit reflects in the second pass the same binding
names per category, in the same order, as in the first pass, and no name is
reflected in two different categories, the index a name has in the final table
of its category is the index it has in the single table collected from the
first pass, the one handed to the code generation of the second pass.  When a
name is reflected in two categories they need not agree: with `x` reflected as a
constant buffer and as a shader-resource view by the same unit in both passes,
the table of the first pass holds `x` at 0 and the final table of the
shader-resource views holds it at 1. -/
theorem C18_final_indices_match_pass1_hints (env : Env)
    (techniques : List ShaderTechniqueInfo)
    (hsame : ∀ c : Category,
      (pass1 env techniques).2.1.map (fun u => (c.sel u).map (·.name_))
        = (pass2 env techniques).2.1.map (fun u => (c.sel u).map (·.name_)))
    (hdisj : ∀ c c1 : Category, c ≠ c1 →
      ∀ x, x ∈ (reflectedBindings c (pass2 env techniques).2.1).map (·.name_) →
        x ∉ (reflectedBindings c1 (pass2 env techniques).2.1).map (·.name_)) :
    (∀ (c : Category) (x : String) (g : Int),
      BindingMap.find ((finalTables (pass2 env techniques).2.1).table c) x = some g →
      BindingMap.find (usedBindings (pass1 env techniques).2.1) x = some g) ∧
    (BindingMap.find (usedBindings twoCategoryOutputs) "x" = some 0 ∧
      BindingMap.find ((finalTables twoCategoryOutputs).table .srv) "x" = some 1) := by
  refine ⟨?_, by decide, by decide⟩
  intro c x g h
  rw [usedBindings_names _ _ (fun c1 => reflected_names_of_units c1 _ _ (hsame c1)),
    usedBindings_eq_all _ hdisj]
  exact find_all_of_table _ hdisj c x g h

/-- Claim C18 at the conversion of `sampleTechnique` under `reflectEnv`, where
both passes reflect the same names and no name is in two categories: the
sampler `samp` has index 2 in the sampler table and in the table of the first
pass. -/
theorem C18_final_indices_match_pass1_hints_witness :
    BindingMap.find ((finalTables (pass2 reflectEnv [sampleTechnique]).2.1).table .sampler)
      "samp" = some 2 ∧
    ((∀ (c : Category) (x : String) (g : Int),
      BindingMap.find ((finalTables (pass2 reflectEnv [sampleTechnique]).2.1).table c) x
        = some g →
      BindingMap.find (usedBindings (pass1 reflectEnv [sampleTechnique]).2.1) x = some g) ∧
    (BindingMap.find (usedBindings twoCategoryOutputs) "x" = some 0 ∧
      BindingMap.find ((finalTables twoCategoryOutputs).table .srv) "x" = some 1)) :=
  ⟨by decide, C18_final_indices_match_pass1_hints reflectEnv [sampleTechnique]
    (fun c => by cases c <;> rfl)
    (fun c c1 hne x => by
      cases c <;> cases c1 <;> first | exact absurd rfl hne | (intro hx; revert x; decide))⟩

theorem compileLoop_all_ok
    (compile : String → String → String → ShaderType → Except String ShaderCompileOutput) :
    ∀ (cis : List CompileInfo) (acc : List ShaderCompileOutput),
      (∀ c ∈ cis, ∃ o, compile c.name_ c.code_ c.entryPoint_ c.type_ = .ok o) →
      (compileLoop compile cis acc).2 = none
  | [], _, _ => rfl
  | c :: rest, acc, h => by
    obtain ⟨o, ho⟩ := h c (List.mem_cons_self _ _)
    simp only [compileLoop, ho]
    exact compileLoop_all_ok compile rest _ (fun c1 hc1 => h c1 (List.mem_cons_of_mem _ hc1))

theorem forall₂_mem_right {α β : Type} {R : α → β → Prop} :
    ∀ {l1 : List α} {l2 : List β}, List.Forall₂ R l1 l2 → ∀ b ∈ l2, ∃ a ∈ l1, R a b
  | _, _, .nil, b, hb => by simp at hb
  | _, _, .cons hr hrest, b, hb => by
    rcases List.mem_cons.mp hb with h | h
    · subst h
      exact ⟨_, List.mem_cons_self _ _, hr⟩
    · obtain ⟨a, ha, hab⟩ := forall₂_mem_right hrest b h
      exact ⟨a, List.mem_cons_of_mem _ ha, hab⟩

/-- The units gathered from one technique with a vertex and a pixel stage
only: the vertex unit, then the pixel unit. -/
theorem units_of_vertex_pixel_technique (env : Env) (t : ShaderTechniqueInfo)
    (bindingMap : BindingMap) (hv : t.vs_ ≠ "") (hp : t.ps_ ≠ "")
    (hg : t.gs_ = "") (hh : t.hs_ = "") (hd : t.ds_ = "") (hc : t.cs_ = "") :
    (GenerateAndCompile env (gatherShaders [t]) bindingMap).1
      = [⟨env.sourceFile, env.genCode bindingMap, t.vs_, .VS⟩,
         ⟨env.sourceFile, env.genCode bindingMap, t.ps_, .PS⟩] := by
  have hvl : 0 < t.vs_.length := string_length_pos_iff.mpr hv
  have hpl : 0 < t.ps_.length := string_length_pos_iff.mpr hp
  simp [GenerateAndCompile, makeCompileInfo, ShaderType.all, gatherShaders,
    gatherTechnique_apply, ShaderTechniqueInfo.entry, hg, hh, hd, hc, hvl, hpl, setInsert]

/-- The scenario of claim C14 for different names.  One technique with a
non-empty vertex entry point, a different non-empty pixel entry point and no
other stage, under a compiler that succeeds on every unit and reflects no
bindings: a package is written with the four category counts 0, no
binding-name records, no mappings, two units, and the technique record with the
vertex index 0, the pixel index 1 and -1 for the other four stages. -/
theorem scenario_vertex_pixel_distinct_names (env : Env) (t : ShaderTechniqueInfo)
    (samplerStates : List ShaderSamplerStateInfo)
    (hv : t.vs_ ≠ "") (hp : t.ps_ ≠ "") (hne : t.vs_ ≠ t.ps_)
    (hg : t.gs_ = "") (hh : t.hs_ = "") (hd : t.ds_ = "") (hc : t.cs_ = "")
    (hcomp : ∀ n c e k, ∃ o, env.compile n c e k = .ok o ∧ o.cbuffers_ = [] ∧
      o.samplers_ = [] ∧ o.srvs_ = [] ∧ o.uavs_ = [])
    (hdest : env.canCreateDest = true) :
    ∃ pkg, Convert env [t] samplerStates = .ok pkg ∧
      pkg.outHeader.numCBuffers_ = 0 ∧ pkg.outHeader.numSamplers_ = 0 ∧
      pkg.outHeader.numSRVs_ = 0 ∧ pkg.outHeader.numUAVs_ = 0 ∧
      pkg.outHeader.numShaders_ = 2 ∧ pkg.outBytecodeHeaders.length = 2 ∧
      pkg.outBindingHeaders = [] ∧ pkg.outBindingMappings = [] ∧
      pkg.outTechniqueHeaders
        = [{ name_ := strcpy_s env.techniqueNameCap t.name_, vs_ := 0, gs_ := -1, hs_ := -1,
             ds_ := -1, ps_ := 1, cs_ := -1, rs_ := t.rs_ }] := by
  have hall : ∀ cis : List CompileInfo, ∀ c ∈ cis,
      ∃ o, env.compile c.name_ c.code_ c.entryPoint_ c.type_ = .ok o := by
    intro cis c _
    obtain ⟨o, ho, _⟩ := hcomp c.name_ c.code_ c.entryPoint_ c.type_
    exact ⟨o, ho⟩
  have h1 : (pass1 env [t]).2.2 = none := by
    rw [pass1_diag]; exact compileLoop_all_ok _ _ _ (hall _)
  have h2 : (pass2 env [t]).2.2 = none := by
    rw [pass2_diag]; exact compileLoop_all_ok _ _ _ (hall _)
  have hunits := units_of_vertex_pixel_technique env t
    (usedBindings (pass1 env [t]).2.1) hv hp hg hh hd hc
  have hempty : ∀ u ∈ (pass2 env [t]).2.1, ∀ c : Category, c.sel u = [] := by
    intro u hu c
    obtain ⟨ci, _, hci⟩ := forall₂_mem_right (pass2_outputs h2) u hu
    obtain ⟨o, ho, e1, e2, e3, e4⟩ := hcomp ci.name_ ci.code_ ci.entryPoint_ ci.type_
    rw [ho] at hci
    injection hci with hci
    subst hci
    cases c <;> simp [Category.sel, e1, e2, e3, e4]
  have hrefl : ∀ c : Category, reflectedBindings c (pass2 env [t]).2.1 = [] := by
    intro c
    simp only [reflectedBindings, List.flatMap_eq_nil_iff]
    exact fun u hu => hempty u hu c
  have htab : ∀ c : Category, (finalTables (pass2 env [t]).2.1).table c = [] := by
    intro c
    rw [finalTables_table, hrefl]
    rfl
  obtain ⟨pkg, hok⟩ := Convert_succeeds env [t] samplerStates h1 h2
    (fun _ t1 ht1 => (technique_assertion_iff env [t] t1 ht1).mpr (by
      simp only [List.mem_singleton] at ht1
      subst ht1
      exact Or.inl hv)) hdest
  obtain ⟨hm, _, hb, hhead⟩ := Convert_records hok
  obtain ⟨hlen, hnum, _⟩ := Convert_unit_counts hok
  have hth := Convert_techniqueHeaders hok
  have hcb := htab .cbuffer
  have hsm := htab .sampler
  have hsr := htab .srv
  have hua := htab .uav
  simp only [BindingTables.table] at hcb hsm hsr hua
  have hci2 : (pass2 env [t]).1
      = [⟨env.sourceFile, env.genCode (usedBindings (pass1 env [t]).2.1), t.vs_, .VS⟩,
         ⟨env.sourceFile, env.genCode (usedBindings (pass1 env [t]).2.1), t.ps_, .PS⟩] :=
    hunits
  have hflat : flattenedMappings (finalTables (pass2 env [t]).2.1) (pass2 env [t]).2.1 = [] := by
    simp only [flattenedMappings, List.flatMap_eq_nil_iff, List.map_eq_nil_iff]
    intro u hu
    have e1 := hempty u hu .cbuffer
    have e2 := hempty u hu .sampler
    have e3 := hempty u hu .srv
    have e4 := hempty u hu .uav
    simp only [Category.sel] at e1 e2 e3 e4
    simp [unitBindings, e1, e2, e3, e4]
  have hne1 : ¬ t.vs_ = "" := hv
  have hne2 : ¬ t.ps_ = "" := hp
  refine ⟨pkg, hok, ?_, ?_, ?_, ?_, ?_, ?_, ?_, ?_, ?_⟩
  · rw [hhead]; simp [makeHeader, hcb]
  · rw [hhead]; simp [makeHeader, hsm]
  · rw [hhead]; simp [makeHeader, hsr]
  · rw [hhead]; simp [makeHeader, hua]
  · rw [hnum, hci2]; rfl
  · rw [hlen, hci2]; rfl
  · rw [hb]; simp [BindingTables.all, hcb, hsm, hsr, hua]
  · rw [hflat] at hm
    exact List.map_eq_nil_iff.mp hm
  · rw [hth, hci2]
    simp [techniqueHeader, FindShaderIdx, findShaderLoop, hg, hh, hd, hc, hne, hne1, hne2]

end ShaderConv

